import Mathlib

/-!
Verification of the task-orchestrator core: a shallow embedding of the task
graph / scheduler (`src/orchestrator/tasks/manager.py`), the completion
propagation and interrupt handling of the execution engine
(`src/orchestrator/core/orchestrator.py`), the interrupt controller
(`src/orchestrator/core/interrupt.py`) and the hook engine
(`src/orchestrator/hooks/engine.py`).

Conventions of the embedding:
* the Python `dict[str, Task]` (insertion ordered, unique keys) is embedded
  as an insertion-ordered `List Task`; uniqueness of ids is the
  well-formedness predicate `TaskManager.WF`;
* `datetime` bookkeeping fields (`created_at`, `updated_at`, `completed_at`)
  and purely informational fields (`description`, `assigned_to`,
  `skill_required`, `todo_list`) of the Python `Task` model are omitted:
  no verified property reads them;
* Python exceptions raised by an operation before any mutation are embedded
  as a pair of the unchanged state and an error value;
* unbounded recursion in the source (the cycle-detection DFS, the recursive
  parent-completion walk) is embedded with an explicit fuel argument; the
  fuel is chosen at the call sites so that it is never exhausted on the
  states the source can reach.
-/

namespace Orch

/-- Task execution status, from `TaskStatus` in `tasks/models.py`. -/
inductive TaskStatus where
  | pending
  | in_progress
  | blocked
  | completed
  | failed
  | cancelled
deriving DecidableEq, Repr

/-- Task priority levels, from `TaskPriority` in `tasks/models.py`. -/
inductive TaskPriority where
  | critical
  | high
  | medium
  | low
deriving DecidableEq, Repr

/-- Task model with hierarchy and dependency support, from `Task` in
`tasks/models.py` (timestamps and informational fields omitted, see the
file header). -/
structure Task where
  id : String
  title : String := ""
  status : TaskStatus := .pending
  priority : TaskPriority := .medium
  parent_id : Option String := none
  subtasks : List String := []
  depends_on : List String := []
  blocks : List String := []
  result : Option String := none
  error : Option String := none
deriving DecidableEq, Repr

/-- The task manager state, from `TaskManager.__init__` in
`tasks/manager.py`: the `tasks` dict plus the two configuration entries the
verified operations read. -/
structure TaskManager where
  tasks : List Task
  max_pending_tasks : Nat := 100
  auto_block_on_dependency : Bool := true
deriving DecidableEq, Repr

/-- Dictionary lookup `self.tasks.get(task_id)`, from
`TaskManager.get_task`. -/
def TaskManager.get_task (tm : TaskManager) (task_id : String) : Option Task :=
  tm.tasks.find? (fun t => t.id == task_id)

/-- Well-formedness of a manager state: ids are unique (they are keys of a
Python dict) and the edge lists are duplicate-free (as every state built
through the manager's own operations keeps them). -/
def TaskManager.WF (tm : TaskManager) : Prop :=
  tm.tasks.Pairwise (fun a b => a.id ≠ b.id) ∧
    ∀ t ∈ tm.tasks, t.depends_on.Nodup ∧ t.blocks.Nodup

instance (tm : TaskManager) : Decidable tm.WF := by
  unfold TaskManager.WF; infer_instance

/-- In-place mutation of the (unique) task object stored under `task_id`,
the embedding of Python attribute assignment on the object returned by
`self.tasks.get(task_id)`. -/
def TaskManager.modifyTask (tm : TaskManager) (task_id : String) (f : Task → Task) :
    TaskManager :=
  { tm with tasks := tm.tasks.map (fun t => if t.id == task_id then f t else t) }

/-- Append an id to `depends_on` (the mutation of `add_dependency`). -/
def appendDep (depends_on_id : String) (t : Task) : Task :=
  { t with depends_on := t.depends_on ++ [depends_on_id] }

/-- Append an id to `blocks` (the inverse mutation of `add_dependency`). -/
def appendBlock (task_id : String) (t : Task) : Task :=
  { t with blocks := t.blocks ++ [task_id] }

/-- Set a task's status to blocked (the auto-block of `add_dependency`). -/
def setBlocked (t : Task) : Task := { t with status := .blocked }

/-- Set a task's status to pending (the unblock transition of
`_unblock_dependent_tasks`). -/
def setPending (t : Task) : Task := { t with status := .pending }

/-- Set a task's status to in-progress (start of `_execute_task`). -/
def setInProgress (t : Task) : Task := { t with status := .in_progress }

/-- Record a result and mark the task completed (`_execute_task` on normal
return, and the auto-completion of `_check_parent_completion`). -/
def completeWith (res : String) (t : Task) : Task :=
  { t with status := .completed, result := some res }

/-- Record an error and mark the task failed (`_execute_task` on an
escaped exception). -/
def failWith (err : String) (t : Task) : Task :=
  { t with status := .failed, error := some err }

/-- The task update of `_handle_interrupt`: back to pending, fixed error
text, partial output as the result. -/
def interruptUpdate (saved : Option String) (t : Task) : Task :=
  { t with
    status := .pending
    error := some "Interrupted by user"
    result := saved }

/-- Remove the first occurrence of an id from `depends_on` (Python
`list.remove` in `remove_dependency`). -/
def eraseDep (depends_on_id : String) (t : Task) : Task :=
  { t with depends_on := t.depends_on.erase depends_on_id }

/-- Remove the first occurrence of an id from `blocks` (Python
`list.remove` in `remove_dependency`). -/
def eraseBlock (task_id : String) (t : Task) : Task :=
  { t with blocks := t.blocks.erase task_id }

/-- Python dict assignment `self.tasks[task.id] = task`: replace in place if
the key exists, append otherwise. -/
def dictInsert (tasks : List Task) (t : Task) : List Task :=
  if tasks.any (fun x => x.id == t.id) then
    tasks.map (fun x => if x.id == t.id then t else x)
  else
    tasks ++ [t]

/-- Errors of `TaskManager.create_task`. -/
inductive CreateError where
  | maxPending
deriving DecidableEq, Repr

/-- The `TaskManager.create_task` operation: reject when the number of
pending tasks is already at the configured ceiling, insert otherwise. -/
def TaskManager.create_task (tm : TaskManager) (t : Task) :
    TaskManager × Option CreateError :=
  let pending_count := (tm.tasks.filter (fun x => x.status == .pending)).length
  if tm.max_pending_tasks ≤ pending_count then
    (tm, some .maxPending)
  else
    ({ tm with tasks := dictInsert tm.tasks t }, none)

/-- Status filter of `TaskManager.list_tasks`. -/
def TaskManager.list_tasks_status (tm : TaskManager) (s : TaskStatus) : List Task :=
  tm.tasks.filter (fun t => t.status == s)

section InterruptController

/-- Type of interrupt requested, from `InterruptType` in
`core/interrupt.py`. -/
inductive InterruptType where
  | none
  | soft
  | hard
deriving DecidableEq, Repr

/-- Reason for an interrupt, from `InterruptReason` in
`core/interrupt.py`. -/
inductive InterruptReason where
  | user_request
  | timeout
  | error
  | shutdown
deriving DecidableEq, Repr

/-- Current interrupt state, from the `InterruptState` dataclass (the
wall-clock `timestamp` field is omitted). Field defaults follow the
dataclass defaults. -/
structure InterruptState where
  requested : Bool := false
  interrupt_type : InterruptType := .none
  reason : InterruptReason := .user_request
  message : Option String := Option.none
deriving DecidableEq, Repr

/-- State of an `InterruptController`: the interrupt state, the per-cycle
request counter and the configured soft-interrupt limit. -/
structure InterruptController where
  state : InterruptState := {}
  interrupt_count : Nat := 0
  soft_interrupt_limit : Nat := 2
deriving DecidableEq, Repr

/-- The message substituted by escalation in `request_interrupt`. -/
def escalationMessage (count : Nat) : String :=
  "Escalated to HARD interrupt after " ++ toString count ++ " requests"

/-- The `InterruptController.request_interrupt` operation: increment the
per-cycle counter, escalate the requested type to hard once the counter
exceeds the configured limit, and store the new state. -/
def InterruptController.request_interrupt (c : InterruptController)
    (interrupt_type : InterruptType) (reason : InterruptReason)
    (message : Option String) : InterruptController :=
  let count := c.interrupt_count + 1
  let escalate := c.soft_interrupt_limit < count
  let ty := if escalate then .hard else interrupt_type
  let msg := if escalate then some (escalationMessage count) else message
  { c with
    interrupt_count := count
    state :=
      { requested := true
        interrupt_type := ty
        reason := reason
        message := msg } }

/-- The `InterruptController.reset` operation: fresh default state, counter
back to zero. -/
def InterruptController.reset (c : InterruptController) : InterruptController :=
  { c with state := {}, interrupt_count := 0 }

end InterruptController

/-- Whether the task stored under `task_id` is completed; the shape of the
per-id checks in `TaskManager._is_task_executable` (a missing task counts
as not completed). -/
def TaskManager.idCompleted (tm : TaskManager) (task_id : String) : Bool :=
  match tm.get_task task_id with
  | some t => t.status == .completed
  | none => false

/-- The `TaskManager._is_task_executable` check: all dependencies completed,
all subtasks completed, and the parent (when present) in progress or
completed. -/
def TaskManager.is_task_executable (tm : TaskManager) (t : Task) : Bool :=
  t.depends_on.all tm.idCompleted &&
  t.subtasks.all tm.idCompleted &&
  (match t.parent_id with
   | Option.none => true
   | some pid =>
     match tm.get_task pid with
     | some p => p.status == .in_progress || p.status == .completed
     | Option.none => false)

/-- The priority ranking dict of `TaskManager.get_next_executable_task`
(every constructor is a key, so the Python fallback value 999 is
unreachable and not modelled). -/
def priorityOrder : TaskPriority → Nat
  | .critical => 0
  | .high => 1
  | .medium => 2
  | .low => 3

/-- The sort key relation of `get_next_executable_task`. -/
def taskPriorityLE (a b : Task) : Prop :=
  priorityOrder a.priority ≤ priorityOrder b.priority

instance : DecidableRel taskPriorityLE := fun a b =>
  inferInstanceAs (Decidable (priorityOrder a.priority ≤ priorityOrder b.priority))

instance : IsTotal Task taskPriorityLE :=
  ⟨fun a b => Nat.le_total (priorityOrder a.priority) (priorityOrder b.priority)⟩

instance : IsTrans Task taskPriorityLE :=
  ⟨fun _ _ _ hab hbc => Nat.le_trans hab hbc⟩

/-- The executable pending tasks, in discovery (insertion) order: the list
built by the filtering loop of `TaskManager.get_next_executable_task`. -/
def TaskManager.executableTasks (tm : TaskManager) : List Task :=
  (tm.list_tasks_status .pending).filter tm.is_task_executable

/-- The `TaskManager.get_next_executable_task` operation: stable-sort the
executable pending tasks by priority rank and return the first (Python's
`list.sort` is a stable sort; the embedding uses insertion sort, which
computes the same list as any stable sort). Both early `return None`
branches of the source collapse into `head?` of the empty list. -/
def TaskManager.get_next_executable_task (tm : TaskManager) : Option Task :=
  (tm.executableTasks.insertionSort taskPriorityLE).head?

/-- Dependency ids of the task stored under `id` (`task.depends_on` after
`self.tasks.get(start)` in `_has_cycle_dfs`; a missing task contributes no
edges, matching the `return False` there). -/
def TaskManager.depsOf (tm : TaskManager) (id : String) : List String :=
  match tm.get_task id with
  | some t => t.depends_on
  | none => []

/-- The DFS of `TaskManager._has_cycle_dfs`: is there a `depends_on` path
from `start` to `target`?  The mutable `visited` set shared across the
recursion is threaded through explicitly; `fuel` only bounds the recursion
depth of the embedding (the source recursion is bounded by the visited set
growing, so any fuel of at least the number of tasks plus one is never
exhausted). -/
def hasCycleDfs (tm : TaskManager) (target : String) :
    Nat → String → List String → Bool × List String
  | fuel, start, visited =>
    if start == target then (true, visited)
    else if visited.contains start then (false, visited)
    else
      match fuel with
      | 0 => (false, start :: visited)
      | fuel + 1 =>
        (tm.depsOf start).foldl
          (fun acc d => if acc.1 then acc else hasCycleDfs tm target fuel d acc.2)
          (false, start :: visited)

/-- The `TaskManager._has_dependency_cycle` check: DFS from the new
dependency back to the task, starting with an empty visited set. -/
def TaskManager.has_dependency_cycle (tm : TaskManager)
    (task_id new_dependency_id : String) : Bool :=
  (hasCycleDfs tm task_id (tm.tasks.length + 1) new_dependency_id []).1

/-- Errors of the dependency operations, from the `KeyError`/`ValueError`
exceptions of `add_dependency` and `remove_dependency`. -/
inductive DepError where
  | taskNotFound
  | depTaskNotFound
  | selfDependency
  | cycleDetected
deriving DecidableEq, Repr

/-- Step 1 of the mutation phase of `TaskManager.add_dependency`: append
`depends_on_id` to `task.depends_on` when not already present. -/
def addDepStep1 (tm : TaskManager) (task : Task) (task_id depends_on_id : String) :
    TaskManager :=
  if task.depends_on.contains depends_on_id then tm
  else tm.modifyTask task_id (appendDep depends_on_id)

/-- Step 2 of the mutation phase of `add_dependency`: append `task_id` to
`dep.blocks` when not already present. -/
def addDepStep2 (tm : TaskManager) (dep : Task) (task_id depends_on_id : String) :
    TaskManager :=
  if dep.blocks.contains task_id then tm
  else tm.modifyTask depends_on_id (appendBlock task_id)

/-- Step 3 of the mutation phase of `add_dependency`: auto-block the task
when the `auto_block_on_dependency` config is set, the dependency is not
completed and the task is pending (the statuses are those the source read
from the looked-up objects, which steps 1 and 2 did not touch). -/
def addDepStep3 (auto_block : Bool) (tm : TaskManager) (task dep : Task)
    (task_id : String) : TaskManager :=
  if auto_block && !(dep.status == .completed) && task.status == .pending then
    tm.modifyTask task_id setBlocked
  else tm

/-- The mutation phase of `TaskManager.add_dependency`, reached once every
validation passed. `task` and `dep` are the two objects the validation
already looked up. -/
def addDepApply (tm : TaskManager) (task dep : Task)
    (task_id depends_on_id : String) : TaskManager :=
  addDepStep3 tm.auto_block_on_dependency
    (addDepStep2 (addDepStep1 tm task task_id depends_on_id) dep task_id depends_on_id)
    task dep task_id

/-- The task object stored under the depending task's id after a
successful `add_dependency` appended the forward edge. -/
def depAppended (ta : Task) (b : String) : Task :=
  if ta.depends_on.contains b then ta else appendDep b ta

/-- The task object stored under the dependency's id after a successful
`add_dependency` appended the inverse edge. -/
def blocksAppended (tb : Task) (a : String) : Task :=
  if tb.blocks.contains a then tb else appendBlock a tb

/-- The auto-block condition of `add_dependency`, evaluated on the
pre-mutation statuses (which steps 1 and 2 do not change). -/
def autoBlockCond (auto_block : Bool) (ta tb : Task) : Bool :=
  auto_block && !(tb.status == TaskStatus.completed)
    && (ta.status == TaskStatus.pending)

/-- The final task object stored under the depending task's id after a
successful `add_dependency`. -/
def depTaskFinal (auto_block : Bool) (ta tb : Task) (b : String) : Task :=
  if autoBlockCond auto_block ta tb then setBlocked (depAppended ta b)
  else depAppended ta b

/-- The `TaskManager.add_dependency` operation. Every validation failure is
raised before any mutation, so the error cases return the input state
unchanged. -/
def TaskManager.add_dependency (tm : TaskManager) (task_id depends_on_id : String) :
    TaskManager × Option DepError :=
  match tm.get_task task_id, tm.get_task depends_on_id with
  | Option.none, _ => (tm, some .taskNotFound)
  | some _, Option.none => (tm, some .depTaskNotFound)
  | some task, some dep =>
    if task_id == depends_on_id then (tm, some .selfDependency)
    else if tm.has_dependency_cycle task_id depends_on_id then (tm, some .cycleDetected)
    else (addDepApply tm task dep task_id depends_on_id, none)

/-- Step 1 of `remove_dependency`: drop `depends_on_id` from
`task.depends_on` when present. -/
def rmStep1 (tm : TaskManager) (task : Task) (task_id depends_on_id : String) :
    TaskManager :=
  if task.depends_on.contains depends_on_id then
    tm.modifyTask task_id (eraseDep depends_on_id)
  else tm

/-- Step 2 of `remove_dependency`: drop `task_id` from `dep.blocks` when
present (the membership test reads the object looked up before any
mutation, whose `blocks` list step 1 did not touch). -/
def rmStep2 (tm : TaskManager) (dep : Task) (task_id depends_on_id : String) :
    TaskManager :=
  if dep.blocks.contains task_id then
    tm.modifyTask depends_on_id (eraseBlock task_id)
  else tm

/-- The mutation phase of `remove_dependency`. -/
def removeDepApply (tm : TaskManager) (task dep : Task)
    (task_id depends_on_id : String) : TaskManager :=
  rmStep2 (rmStep1 tm task task_id depends_on_id) dep task_id depends_on_id

/-- The `TaskManager.remove_dependency` operation: remove the first
occurrence of each direction of the edge (Python `list.remove`), after the
same existence validation. -/
def TaskManager.remove_dependency (tm : TaskManager) (task_id depends_on_id : String) :
    TaskManager × Option DepError :=
  match tm.get_task task_id, tm.get_task depends_on_id with
  | Option.none, _ => (tm, some .taskNotFound)
  | some _, Option.none => (tm, some .depTaskNotFound)
  | some task, some dep => (removeDepApply tm task dep task_id depends_on_id, none)

/-- The task object under the depending task's id after `remove_dependency`
dropped the forward edge. -/
def depErased (ta : Task) (b : String) : Task :=
  if ta.depends_on.contains b then eraseDep b ta else ta

/-- The result of dropping the inverse edge from a task's `blocks`. -/
def blocksErased (tb : Task) (a : String) : Task :=
  if tb.blocks.contains a then eraseBlock a tb else tb

/-- Association-list lookup for the `task_map` dict of
`get_execution_order`. -/
def lookupTask (m : List (String × Task)) (id : String) : Option Task :=
  (m.find? (fun p => p.1 == id)).map (fun p => p.2)

/-- Python dict assignment on `task_map`. -/
def assocSet (m : List (String × Task)) (id : String) (t : Task) :
    List (String × Task) :=
  if m.any (fun p => p.1 == id) then
    m.map (fun p => if p.1 == id then (id, t) else p)
  else m ++ [(id, t)]

/-- The body of the inner `for blocked_id in task.blocks` loop of
`get_execution_order`: decrement the in-degree of a blocked id that is a
key of the map, enqueueing it when it reaches zero. -/
def kahnDecStep (task_map : List (String × Task))
    (p : (String → Int) × List String) (blocked_id : String) :
    (String → Int) × List String :=
  if (lookupTask task_map blocked_id).isSome then
    let v := p.1 blocked_id - 1
    let deg := fun id => if id == blocked_id then v else p.1 id
    if v == 0 then (deg, p.2 ++ [blocked_id]) else (deg, p.2)
  else p

/-- The while loop of `TaskManager.get_execution_order` (Kahn's algorithm):
pop the queue front, append the task to the result, decrement the in-degree
of every id it blocks that is a key of the map, enqueueing those that reach
zero. Returns the result list and the remaining queue (empty unless the
fuel ran out; the caller passes enough fuel for every reachable state). -/
def kahnLoop (task_map : List (String × Task)) :
    Nat → (String → Int) → List String → List Task → List Task × List String
  | 0, _, queue, result => (result, queue)
  | fuel + 1, deg, queue, result =>
    match queue with
    | [] => (result, [])
    | task_id :: queue =>
      match lookupTask task_map task_id with
      | Option.none => kahnLoop task_map fuel deg queue result
      | some task =>
        let result := result ++ [task]
        let step := task.blocks.foldl (kahnDecStep task_map) (deg, queue)
        kahnLoop task_map fuel step.1 step.2 result

/-- The `task_map` dict built by the first loop of `get_execution_order`:
ids found in the manager, keyed in first-discovery order. -/
def TaskManager.kahnTaskMap (tm : TaskManager) (task_ids : List String) :
    List (String × Task) :=
  task_ids.foldl
    (fun m tid =>
      match tm.get_task tid with
      | some t => assocSet m tid t
      | Option.none => m)
    []

/-- The initial `in_degree` dict as a total function: keys of `task_map`
map to the length of their full `depends_on` list (external dependencies
included, exactly as the source counts them); every other id reads as the
Python `in_degree.get(tid, 0)` default. -/
def initialDeg (task_map : List (String × Task)) : String → Int :=
  fun id =>
    match lookupTask task_map id with
    | some t => (t.depends_on.length : Int)
    | Option.none => 0

/-- The `TaskManager.get_execution_order` operation: topological sort via
Kahn's algorithm, raising `ValueError` when not every mapped task was
consumed. -/
def TaskManager.get_execution_order (tm : TaskManager) (task_ids : List String) :
    Except String (List Task) :=
  let task_map := tm.kahnTaskMap task_ids
  let deg := initialDeg task_map
  let queue := task_ids.filter (fun tid => deg tid == 0)
  let out := kahnLoop task_map (task_ids.length + task_map.length + 1) deg queue []
  if out.1.length == task_map.length then .ok out.1
  else .error "Dependency cycle detected in task graph"

/-- Dependency edge of the subgraph induced by the given ids: `u → v` when
both ids are in the set and `v`'s task lists `u` among its dependencies. -/
def depEdgeB (tm : TaskManager) (ids : List String) (u v : String) : Bool :=
  ids.contains u && ids.contains v &&
    (match tm.get_task v with
     | some t => t.depends_on.contains u
     | Option.none => false)

/-- Bounded reachability along `depEdgeB`: a dependency path from `u` to `v`
of at most `n` edges through the given id set. -/
def reachB (tm : TaskManager) (ids : List String) :
    Nat → String → String → Bool
  | 0, _, _ => false
  | n + 1, u, v =>
    depEdgeB tm ids u v ||
      ids.any (fun k => reachB tm ids n u k && depEdgeB tm ids k v)

/-- Whether the dependency subgraph induced by the given ids contains a
cycle: some id reaches itself by a nonempty path (paths of length at most
`ids.length` suffice). -/
def hasCycleB (tm : TaskManager) (ids : List String) : Bool :=
  ids.any (fun i => reachB tm ids ids.length i i)

/-- Whether every dependency of every found task of the given id set is
itself in the set (the premise under which the full `depends_on` length used
by `get_execution_order` counts only in-set edges). -/
def closedUnderDeps (tm : TaskManager) (ids : List String) : Bool :=
  ids.all (fun i =>
    match tm.get_task i with
    | some t => t.depends_on.all (fun d => ids.contains d)
    | Option.none => true)

/-- Invariant of the Kahn while loop relating remaining in-degrees, the
queue and the accumulated result to the manager state and the requested
ids. -/
structure KahnInv (tm : TaskManager) (ids : List String)
    (deg : String → Int) (queue : List String) (result : List Task) : Prop where
  resOk : ∀ r ∈ result, tm.get_task r.id = some r
  resIds : ∀ r ∈ result, r.id ∈ ids
  resNd : (result.map Task.id).Nodup
  qSub : ∀ k ∈ queue, k ∈ ids
  qNd : queue.Nodup
  qDisj : ∀ k ∈ queue, k ∉ result.map Task.id
  degEq : ∀ k ∈ ids, ∀ t, tm.get_task k = some t →
    deg k = ((t.depends_on.filter
      (fun d => ! ((result.map Task.id).contains d))).length : Int)
  qChar : ∀ k ∈ ids, k ∉ result.map Task.id → (k ∈ queue ↔ deg k = 0)
  depsDone : ∀ r ∈ result, ∀ d ∈ r.depends_on, d ∈ result.map Task.id
  ordered : ∀ n (h : n < result.length), ∀ d ∈ result[n].depends_on,
    d ∈ (result.take n).map Task.id

section Engine

/-- The synthesized result of `Orchestrator._check_parent_completion`. -/
def autoCompleteResult (n : Nat) : String :=
  "All " ++ toString n ++ " subtasks completed successfully"

/-- The body of the `Orchestrator._unblock_dependent_tasks` loop for one
id of the completed task's `blocks` list: if that task exists, is currently
blocked and all of its own dependencies are completed, set it back to
pending (via `task_manager.update_task`). -/
def unblockStep (tm : TaskManager) (blocked_id : String) : TaskManager :=
  match tm.get_task blocked_id with
  | Option.none => tm
  | some bt =>
    if bt.status == .blocked then
      if bt.depends_on.all tm.idCompleted then
        tm.modifyTask blocked_id setPending
      else tm
    else tm

/-- The loop of `_unblock_dependent_tasks` over the completed task's
`blocks` list. -/
def unblock_dependent_tasks (tm : TaskManager) (completed_task_id : String) :
    TaskManager :=
  match tm.get_task completed_task_id with
  | Option.none => tm
  | some ct => ct.blocks.foldl unblockStep tm

/-- The `Orchestrator._check_parent_completion` recursion: auto-complete an
in-progress parent whose (nonempty) subtask list is fully completed,
synthesizing the subtask-count result, then recurse on the grandparent.
The fuel bounds the walk up the parent chain (one unit per ancestor). -/
def check_parent_completion : Nat → TaskManager → String → TaskManager
  | 0, tm, _ => tm
  | fuel + 1, tm, parent_id =>
    match tm.get_task parent_id with
    | Option.none => tm
    | some parent =>
      if parent.status == .in_progress then
        if parent.subtasks.all tm.idCompleted && !parent.subtasks.isEmpty then
          let tm1 := tm.modifyTask parent_id
            (completeWith (autoCompleteResult parent.subtasks.length))
          match parent.parent_id with
          | some gp => check_parent_completion fuel tm1 gp
          | Option.none => tm1
        else tm
      else tm

/-- The `Orchestrator._handle_task_completion` sequence: unblock dependents,
then check the parent (when the completed task has one) for
auto-completion. -/
def handle_task_completion (tm : TaskManager) (completed_task_id : String) :
    TaskManager :=
  let tm1 := unblock_dependent_tasks tm completed_task_id
  match tm1.get_task completed_task_id with
  | some ct =>
    match ct.parent_id with
    | some pid => check_parent_completion (tm1.tasks.length + 1) tm1 pid
    | Option.none => tm1
  | Option.none => tm1

/-- The task-state effect of `Orchestrator._handle_interrupt` (step 2 of
the source): reset the task to pending, record the fixed interrupt error
text, and store any partial output as the result. -/
def handle_interrupt (tm : TaskManager) (task_id : String)
    (saved : Option String) : TaskManager :=
  tm.modifyTask task_id (interruptUpdate saved)

/-- Outcome of one run of `Orchestrator._reasoning_loop` for a task, the
oracle of the embedding: the loop either returns a final text, hits an
interrupt checkpoint (snapshotting any partial text and then returning one
of the fixed sentinel strings), or lets an exception propagate. -/
inductive LoopOutcome where
  | finished (res : String)
  | interrupted (saved : Option String) (sentinel : String)
  | failed (err : String)
deriving DecidableEq, Repr

/-- The task-state effect of `Orchestrator._execute_task`: mark the task in
progress, run the reasoning loop, then either record the returned result
and mark the task completed (running completion propagation), or record
the exception text and mark it failed. An interrupt inside the loop first
applies `handle_interrupt`; the sentinel string the loop then returns is
treated by `_execute_task` like any other result. -/
def execute_task (tm : TaskManager) (task_id : String) (outcome : LoopOutcome) :
    TaskManager :=
  let tm0 := tm.modifyTask task_id setInProgress
  match outcome with
  | .finished res =>
    let tm1 := tm0.modifyTask task_id (completeWith res)
    handle_task_completion tm1 task_id
  | .interrupted saved sentinel =>
    let tm1 := handle_interrupt tm0 task_id saved
    let tm2 := tm1.modifyTask task_id (completeWith sentinel)
    handle_task_completion tm2 task_id
  | .failed err =>
    tm0.modifyTask task_id (failWith err)

end Engine

/-- Spec-level predicate: the task stored under `d` exists and is
completed. -/
def IdCompletedP (tm : TaskManager) (d : String) : Prop :=
  ∃ dt, tm.get_task d = some dt ∧ dt.status = TaskStatus.completed

instance (tm : TaskManager) (d : String) : Decidable (IdCompletedP tm d) := by
  unfold IdCompletedP
  cases h : tm.get_task d with
  | none => exact isFalse (by simp [h])
  | some t => exact decidable_of_iff (t.status = TaskStatus.completed) (by simp [h])

/-- Relation between the manager state at the start of
`_unblock_dependent_tasks` and any intermediate state of its loop: every
entry is either untouched or a formerly blocked task set back to
pending. -/
def UnblockRel (tm s : TaskManager) : Prop :=
  ∀ id, s.get_task id = tm.get_task id ∨
    ∃ t, tm.get_task id = some t ∧ t.status = TaskStatus.blocked ∧
      s.get_task id = some (setPending t)

/-- Spec-level predicate for the parent clause of executability: if the
task has a parent, that parent exists and is in progress or completed. -/
def ParentReadyP (tm : TaskManager) (t : Task) : Prop :=
  ∀ pid, t.parent_id = some pid → ∃ pt, tm.get_task pid = some pt ∧
    (pt.status = TaskStatus.in_progress ∨ pt.status = TaskStatus.completed)

instance (tm : TaskManager) (t : Task) : Decidable (ParentReadyP tm t) := by
  unfold ParentReadyP
  cases hq : t.parent_id with
  | none =>
    exact isTrue (by intro pid h; cases h)
  | some q =>
    cases hg : tm.get_task q with
    | none =>
      refine isFalse (fun hall => ?_)
      obtain ⟨pt, hpt, _⟩ := hall q (Eq.refl _)
      rw [hg] at hpt
      cases hpt
    | some p =>
      refine decidable_of_iff
        (p.status = TaskStatus.in_progress ∨ p.status = TaskStatus.completed) ?_
      constructor
      · intro hst pid hpid
        injection hpid with he
        subst he
        exact ⟨p, hg, hst⟩
      · intro hall
        obtain ⟨pt, hpt, hst⟩ := hall q (Eq.refl _)
        rw [hg] at hpt
        injection hpt with he
        subst he
        exact hst

/-- Spec-level executability of a task: every dependency completed, every
subtask completed, and the parent (when present) in progress or
completed. -/
def ExecutableSpec (tm : TaskManager) (t : Task) : Prop :=
  (∀ d ∈ t.depends_on, IdCompletedP tm d) ∧
  (∀ s ∈ t.subtasks, IdCompletedP tm s) ∧
  ParentReadyP tm t

instance (tm : TaskManager) (t : Task) : Decidable (ExecutableSpec tm t) := by
  unfold ExecutableSpec
  infer_instance

/-- The exact-inverse invariant of the dependency graph: for every pair of
tasks in the collection, B is among A's dependencies exactly when A is
among B's blocked tasks. -/
def InverseInvariant (tm : TaskManager) : Prop :=
  ∀ a ∈ tm.tasks, ∀ b ∈ tm.tasks, (b.id ∈ a.depends_on ↔ a.id ∈ b.blocks)

instance (tm : TaskManager) : Decidable (InverseInvariant tm) := by
  unfold InverseInvariant
  infer_instance

section Hooks

/-- Context passed to hooks, from `HookContext` in `hooks/base.py` (the
opaque `orchestrator_state` reference is omitted: the engine only passes it
through). Dicts are embedded as insertion-ordered association lists. -/
structure HookContext where
  event : String
  data : List (String × String)
  metadata : List (String × String)
deriving DecidableEq, Repr

/-- Result returned from hook execution, from `HookResult` in
`hooks/base.py`. The `action` field is the literal Python string. -/
structure HookResult where
  action : String := "continue"
  reason : Option String := Option.none
  modified_context : Option (List (String × String)) := Option.none
  metadata : Option (List (String × String)) := Option.none
deriving DecidableEq, Repr

/-- Outcome of calling `hook.execute`: a result, or an exception escaping
the hook. -/
inductive HookOutcome where
  | ok (r : HookResult)
  | raisesError
deriving DecidableEq, Repr

/-- A registered hook: its class name (used in the execution trace) plus
the `should_run` filter and the `execute` body. The embedding keeps
`should_run` pure; the verified claims only exercise `execute`. -/
structure Hook where
  name : String
  should_run : HookContext → Bool
  execute : HookContext → HookOutcome

/-- Python `dict.update`: overwrite existing keys in place, append new keys
in patch order. -/
def dictUpdate (d patch : List (String × String)) : List (String × String) :=
  patch.foldl
    (fun d kv =>
      if d.any (fun p => p.1 == kv.1) then
        d.map (fun p => if p.1 == kv.1 then kv else p)
      else d ++ [kv])
    d

/-- Python `s or default` on an optional string (both `None` and the empty
string fall back to the default). -/
def orDefault (s : Option String) (dflt : String) : String :=
  match s with
  | some v => if v == "" then dflt else v
  | Option.none => dflt

/-- The context mutation one hook result applies to the shared context in
`trigger`: merge a non-empty `modified_context` patch into `data`, then a
non-empty `metadata` patch into `metadata` (Python truthiness: `None` and
the empty dict are both skipped). -/
def applyPatches (result : HookResult) (ctx : HookContext) : HookContext :=
  let ctx1 :=
    match result.modified_context with
    | some d =>
      if d.isEmpty then ctx else { ctx with data := dictUpdate ctx.data d }
    | Option.none => ctx
  match result.metadata with
  | some m =>
    if m.isEmpty then ctx1
    else { ctx1 with metadata := dictUpdate ctx1.metadata m }
  | Option.none => ctx1

/-- The for-loop of `HookEngine.trigger` over the priority-sorted hook
list, instrumented with the list of executed hook names (the names the
source logs with "Executing hook"). Hooks whose `should_run` is false are
skipped; a hook that raises is logged and treated as continue; patches are
applied to the shared context; a block result stops the chain. -/
def runHooks : List (Int × Hook) → HookContext → HookResult × List String
  | [], ctx =>
    ({ action := "continue", modified_context := some ctx.data,
       metadata := some ctx.metadata }, [])
  | (_, h) :: rest, ctx =>
    if h.should_run ctx then
      match h.execute ctx with
      | .raisesError =>
        let out := runHooks rest ctx
        (out.1, h.name :: out.2)
      | .ok result =>
        let ctx2 := applyPatches result ctx
        if result.action == "block" then
          ({ action := "block",
             reason := some (orDefault result.reason "Blocked by hook"),
             modified_context := some ctx2.data }, [h.name])
        else
          let out := runHooks rest ctx2
          (out.1, h.name :: out.2)
    else runHooks rest ctx

/-- The hook engine state: the `hooks` registration dict (event name to
priority/hook pairs) and the `enabled` flag. -/
structure HookEngine where
  hooks : List (String × List (Int × Hook))
  enabled : Bool

/-- Registered hooks for one event key (`self.hooks.get(event, [])`). -/
def HookEngine.lookupHooks (e : HookEngine) (event : String) : List (Int × Hook) :=
  match e.hooks.find? (fun p => p.1 == event) with
  | some p => p.2
  | Option.none => []

/-- Priority order on registered hooks (lower runs first). -/
def hookLE (a b : Int × Hook) : Prop := a.1 ≤ b.1

instance : DecidableRel hookLE := fun a b => inferInstanceAs (Decidable (a.1 ≤ b.1))

instance : IsTotal (Int × Hook) hookLE := ⟨fun a b => Int.le_total a.1 b.1⟩

instance : IsTrans (Int × Hook) hookLE := ⟨fun _ _ _ hab hbc => Int.le_trans hab hbc⟩

/-- The combined, priority-sorted hook chain `trigger` runs for an event:
event-specific hooks then wildcard hooks, stable-sorted by priority
(Python's stable `list.sort`, embedded as insertion sort). -/
def HookEngine.sortedHooks (e : HookEngine) (event : String) : List (Int × Hook) :=
  (e.lookupHooks event ++ e.lookupHooks "*").insertionSort hookLE

/-- The `HookEngine.trigger` operation, returning the combined result and
the execution trace. A disabled engine and an empty chain both return a
bare continue result without running anything. -/
def HookEngine.trigger (e : HookEngine) (event : String)
    (data metadata : List (String × String)) : HookResult × List String :=
  if e.enabled then
    let all := e.sortedHooks event
    if all.isEmpty then ({ action := "continue" }, [])
    else runHooks all { event := event, data := data, metadata := metadata }
  else ({ action := "continue" }, [])

/-- Concrete hook that blocks with a reason (C8 witness fixture). -/
def hookBlock10 : Hook :=
  { name := "b10"
    should_run := fun _ => true
    execute := fun _ => .ok { action := "block", reason := some "nope" } }

/-- Concrete hook that continues (C8 witness fixture). -/
def hookLate50 : Hook :=
  { name := "c50"
    should_run := fun _ => true
    execute := fun _ => .ok {} }

/-- Concrete hook that raises (C8 witness fixture). -/
def hookRaise10 : Hook :=
  { name := "r10"
    should_run := fun _ => true
    execute := fun _ => .raisesError }

/-- Engine with a blocking hook at priority 10 and a later hook at 50. -/
def engBlock : HookEngine :=
  { hooks := [("E", [(50, hookLate50), (10, hookBlock10)])], enabled := true }

/-- Engine with a raising hook at priority 10 and a later hook at 50. -/
def engRaise : HookEngine :=
  { hooks := [("E", [(50, hookLate50), (10, hookRaise10)])], enabled := true }

end Hooks

section ManagerLemmas

theorem get_task_modifyTask_self (tm : TaskManager) (id : String) (f : Task → Task)
    (hf : ∀ t, (f t).id = t.id) :
    (tm.modifyTask id f).get_task id = (tm.get_task id).map f := by
  simp only [TaskManager.modifyTask, TaskManager.get_task]
  induction tm.tasks with
  | nil => rfl
  | cons x xs ih =>
    simp only [List.map_cons]
    by_cases hx : x.id = id
    · rw [if_pos (by simp [hx]),
        List.find?_cons_of_pos _ (by simp [hf x, hx]),
        List.find?_cons_of_pos _ (by simp [hx])]
      rfl
    · rw [if_neg (by simp [hx]),
        List.find?_cons_of_neg _ (by simp [hx]),
        List.find?_cons_of_neg _ (by simp [hx])]
      exact ih

theorem get_task_modifyTask_ne (tm : TaskManager) (id id' : String) (f : Task → Task)
    (hf : ∀ t, (f t).id = t.id) (h : id' ≠ id) :
    (tm.modifyTask id f).get_task id' = tm.get_task id' := by
  simp only [TaskManager.modifyTask, TaskManager.get_task]
  induction tm.tasks with
  | nil => rfl
  | cons x xs ih =>
    simp only [List.map_cons]
    by_cases hx : x.id = id
    · rw [if_pos (by simp [hx]),
        List.find?_cons_of_neg _ (by simp [hf x, hx, Ne.symm h]),
        List.find?_cons_of_neg _ (by simp [hx, Ne.symm h])]
      exact ih
    · rw [if_neg (by simp [hx])]
      by_cases hx' : x.id = id'
      · rw [List.find?_cons_of_pos _ (by simp [hx']),
          List.find?_cons_of_pos _ (by simp [hx'])]
      · rw [List.find?_cons_of_neg _ (by simp [hx']),
          List.find?_cons_of_neg _ (by simp [hx'])]
        exact ih

theorem tasks_length_modifyTask (tm : TaskManager) (id : String) (f : Task → Task) :
    (tm.modifyTask id f).tasks.length = tm.tasks.length := by
  simp [TaskManager.modifyTask]

theorem auto_block_modifyTask (tm : TaskManager) (id : String) (f : Task → Task) :
    (tm.modifyTask id f).auto_block_on_dependency = tm.auto_block_on_dependency := rfl

end ManagerLemmas

section DfsLemmas

theorem hasCycleDfs_target (tm : TaskManager) (target : String) (fuel : Nat)
    (visited : List String) :
    hasCycleDfs tm target fuel target visited = (true, visited) := by
  cases fuel <;> simp [hasCycleDfs]

theorem dfsFold_of_true (tm : TaskManager) (target : String) (fuel : Nat)
    (ds : List String) (acc : Bool × List String) (h : acc.1 = true) :
    ds.foldl (fun acc d => if acc.1 then acc else hasCycleDfs tm target fuel d acc.2)
      acc = acc := by
  induction ds with
  | nil => rfl
  | cons d ds ih => simp [List.foldl_cons, h, ih]

theorem dfsFold_of_mem (tm : TaskManager) (target : String) (fuel : Nat)
    (ds : List String) (h : target ∈ ds) (acc : Bool × List String) :
    (ds.foldl (fun acc d => if acc.1 then acc else hasCycleDfs tm target fuel d acc.2)
      acc).1 = true := by
  induction ds generalizing acc with
  | nil => cases h
  | cons d ds ih =>
    simp only [List.foldl_cons]
    by_cases ha : acc.1 = true
    · rw [if_pos ha, dfsFold_of_true tm target fuel ds acc ha]
      exact ha
    · rw [if_neg ha]
      rcases List.mem_cons.mp h with h1 | h2
      · subst h1
        rw [hasCycleDfs_target,
          dfsFold_of_true tm target fuel ds ((true, acc.2) : Bool × List String) rfl]
      · exact ih h2 _

theorem has_dependency_cycle_of_mem (tm : TaskManager) (x y : String)
    (hne : (y == x) = false) (hdep : x ∈ tm.depsOf y) :
    tm.has_dependency_cycle x y = true := by
  unfold TaskManager.has_dependency_cycle
  rw [hasCycleDfs]
  simp only [hne, Bool.false_eq_true, if_false, List.contains_nil]
  exact dfsFold_of_mem tm x tm.tasks.length (tm.depsOf y) hdep _

theorem hasCycleDfs_congr (tm₁ tm₂ : TaskManager) (target : String)
    (h : ∀ id, id ≠ target → tm₁.depsOf id = tm₂.depsOf id) :
    ∀ fuel start visited,
      hasCycleDfs tm₁ target fuel start visited
        = hasCycleDfs tm₂ target fuel start visited := by
  intro fuel
  induction fuel with
  | zero =>
    intro start visited
    rw [hasCycleDfs, hasCycleDfs]
  | succ n ih =>
    intro start visited
    rw [hasCycleDfs, hasCycleDfs]
    by_cases hst : start = target
    · simp [hst]
    · by_cases hv : start ∈ visited
      · simp [hst, hv]
      · simp [hst, hv, h start hst, ih]

end DfsLemmas

section AddDependencyLemmas

theorem get_task_id (tm : TaskManager) (a : String) (t : Task)
    (h : tm.get_task a = some t) : t.id = a := by
  have := List.find?_some h
  simpa using this

theorem depsOf_modifyTask_ne (tm : TaskManager) (id id' : String) (f : Task → Task)
    (hf : ∀ t, (f t).id = t.id) (h : id' ≠ id) :
    (tm.modifyTask id f).depsOf id' = tm.depsOf id' := by
  unfold TaskManager.depsOf
  rw [get_task_modifyTask_ne tm id id' f hf h]

theorem depsOf_modifyTask_preserve (tm : TaskManager) (id id' : String)
    (f : Task → Task) (hf : ∀ t, (f t).id = t.id)
    (hd : ∀ t, (f t).depends_on = t.depends_on) :
    (tm.modifyTask id f).depsOf id' = tm.depsOf id' := by
  unfold TaskManager.depsOf
  by_cases h : id' = id
  · subst h
    rw [get_task_modifyTask_self tm id' f hf]
    cases tm.get_task id' <;> simp [hd]
  · rw [get_task_modifyTask_ne tm id id' f hf h]

theorem add_dependency_ok_shape (tm tm' : TaskManager) (a b : String)
    (h : tm.add_dependency a b = (tm', none)) :
    ∃ ta tb, tm.get_task a = some ta ∧ tm.get_task b = some tb ∧
      a ≠ b ∧ tm.has_dependency_cycle a b = false ∧
      tm' = addDepApply tm ta tb a b := by
  cases hga : tm.get_task a with
  | none => simp [TaskManager.add_dependency, hga] at h
  | some ta =>
    cases hgb : tm.get_task b with
    | none => simp [TaskManager.add_dependency, hga, hgb] at h
    | some tb =>
      by_cases hab : a = b
      · simp [TaskManager.add_dependency, hga, hgb, hab] at h
      · by_cases hcyc : tm.has_dependency_cycle a b = true
        · simp [TaskManager.add_dependency, hga, hgb, hab, hcyc] at h
        · simp only [TaskManager.add_dependency, hga, hgb] at h
          rw [if_neg (by simp [hab]), if_neg hcyc] at h
          simp only [Prod.mk.injEq] at h
          refine ⟨ta, tb, rfl, rfl, hab, by simpa using hcyc, h.1.symm⟩

theorem addDepStep1_get_self (tm : TaskManager) (ta : Task) (a b : String)
    (hga : tm.get_task a = some ta) :
    (addDepStep1 tm ta a b).get_task a = some (depAppended ta b) := by
  unfold addDepStep1 depAppended
  by_cases hc : ta.depends_on.contains b
  · rw [if_pos hc, if_pos hc, hga]
  · rw [if_neg hc, if_neg hc,
      get_task_modifyTask_self tm a (appendDep b) (fun _ => rfl), hga]
    rfl

theorem addDepStep1_get_ne (tm : TaskManager) (ta : Task) (a b id : String)
    (h : id ≠ a) :
    (addDepStep1 tm ta a b).get_task id = tm.get_task id := by
  unfold addDepStep1
  by_cases hc : ta.depends_on.contains b
  · rw [if_pos hc]
  · rw [if_neg hc, get_task_modifyTask_ne tm a id (appendDep b) (fun _ => rfl) h]

theorem addDepStep2_get_self (tm : TaskManager) (tb : Task) (a b : String)
    (hgb : tm.get_task b = some tb) :
    (addDepStep2 tm tb a b).get_task b = some (blocksAppended tb a) := by
  unfold addDepStep2 blocksAppended
  by_cases hc : tb.blocks.contains a
  · rw [if_pos hc, if_pos hc, hgb]
  · rw [if_neg hc, if_neg hc,
      get_task_modifyTask_self tm b (appendBlock a) (fun _ => rfl), hgb]
    rfl

theorem addDepStep2_get_ne (tm : TaskManager) (tb : Task) (a b id : String)
    (h : id ≠ b) :
    (addDepStep2 tm tb a b).get_task id = tm.get_task id := by
  unfold addDepStep2
  by_cases hc : tb.blocks.contains a
  · rw [if_pos hc]
  · rw [if_neg hc, get_task_modifyTask_ne tm b id (appendBlock a) (fun _ => rfl) h]

theorem addDepStep3_get_self (ab : Bool) (tm : TaskManager) (ta tb taCur : Task)
    (a : String) (hga : tm.get_task a = some taCur) :
    (addDepStep3 ab tm ta tb a).get_task a
      = some (if autoBlockCond ab ta tb then setBlocked taCur else taCur) := by
  unfold addDepStep3 autoBlockCond
  by_cases hc : (ab && !(tb.status == TaskStatus.completed)
      && (ta.status == TaskStatus.pending)) = true
  · rw [if_pos hc, if_pos hc,
      get_task_modifyTask_self tm a setBlocked (fun _ => rfl), hga]
    rfl
  · rw [if_neg hc, if_neg hc, hga]

theorem addDepStep3_get_ne (ab : Bool) (tm : TaskManager) (ta tb : Task)
    (a id : String) (h : id ≠ a) :
    (addDepStep3 ab tm ta tb a).get_task id = tm.get_task id := by
  unfold addDepStep3
  by_cases hc : (ab && !(tb.status == TaskStatus.completed)
      && (ta.status == TaskStatus.pending)) = true
  · rw [if_pos hc, get_task_modifyTask_ne tm a id setBlocked (fun _ => rfl) h]
  · rw [if_neg hc]

theorem addDepStep1_length (tm : TaskManager) (ta : Task) (a b : String) :
    (addDepStep1 tm ta a b).tasks.length = tm.tasks.length := by
  unfold addDepStep1
  by_cases hc : ta.depends_on.contains b
  · rw [if_pos hc]
  · rw [if_neg hc, tasks_length_modifyTask]

theorem addDepStep2_length (tm : TaskManager) (tb : Task) (a b : String) :
    (addDepStep2 tm tb a b).tasks.length = tm.tasks.length := by
  unfold addDepStep2
  by_cases hc : tb.blocks.contains a
  · rw [if_pos hc]
  · rw [if_neg hc, tasks_length_modifyTask]

theorem addDepStep3_length (ab : Bool) (tm : TaskManager) (ta tb : Task)
    (a : String) :
    (addDepStep3 ab tm ta tb a).tasks.length = tm.tasks.length := by
  unfold addDepStep3
  by_cases hc : (ab && !(tb.status == TaskStatus.completed)
      && (ta.status == TaskStatus.pending)) = true
  · rw [if_pos hc, tasks_length_modifyTask]
  · rw [if_neg hc]

theorem addDepStep1_auto (tm : TaskManager) (ta : Task) (a b : String) :
    (addDepStep1 tm ta a b).auto_block_on_dependency
      = tm.auto_block_on_dependency := by
  unfold addDepStep1
  by_cases hc : ta.depends_on.contains b
  · rw [if_pos hc]
  · rw [if_neg hc, auto_block_modifyTask]

theorem addDepStep2_auto (tm : TaskManager) (tb : Task) (a b : String) :
    (addDepStep2 tm tb a b).auto_block_on_dependency
      = tm.auto_block_on_dependency := by
  unfold addDepStep2
  by_cases hc : tb.blocks.contains a
  · rw [if_pos hc]
  · rw [if_neg hc, auto_block_modifyTask]

theorem addDepStep3_auto (ab : Bool) (tm : TaskManager) (ta tb : Task)
    (a : String) :
    (addDepStep3 ab tm ta tb a).auto_block_on_dependency
      = tm.auto_block_on_dependency := by
  unfold addDepStep3
  by_cases hc : (ab && !(tb.status == TaskStatus.completed)
      && (ta.status == TaskStatus.pending)) = true
  · rw [if_pos hc, auto_block_modifyTask]
  · rw [if_neg hc]

theorem addDepStep2_depsOf (tm : TaskManager) (tb : Task) (a b id : String) :
    (addDepStep2 tm tb a b).depsOf id = tm.depsOf id := by
  unfold addDepStep2
  by_cases hc : tb.blocks.contains a
  · rw [if_pos hc]
  · rw [if_neg hc,
      depsOf_modifyTask_preserve tm b id (appendBlock a) (fun _ => rfl) (fun _ => rfl)]

theorem addDepApply_get_a (tm : TaskManager) (ta tb : Task) (a b : String)
    (hab : a ≠ b) (hga : tm.get_task a = some ta) :
    (addDepApply tm ta tb a b).get_task a
      = some (depTaskFinal tm.auto_block_on_dependency ta tb b) := by
  unfold addDepApply depTaskFinal
  rw [addDepStep3_get_self _ _ ta tb (depAppended ta b) a
    (by rw [addDepStep2_get_ne _ tb a b a hab,
        addDepStep1_get_self tm ta a b hga])]

theorem addDepApply_get_b (tm : TaskManager) (ta tb : Task) (a b : String)
    (hab : a ≠ b) (hgb : tm.get_task b = some tb) :
    (addDepApply tm ta tb a b).get_task b = some (blocksAppended tb a) := by
  unfold addDepApply
  rw [addDepStep3_get_ne _ _ ta tb a b (Ne.symm hab),
    addDepStep2_get_self _ tb a b
      (by rw [addDepStep1_get_ne tm ta a b b (Ne.symm hab)]; exact hgb)]

theorem addDepApply_depsOf_ne (tm : TaskManager) (ta tb : Task) (a b id : String)
    (h : id ≠ a) :
    (addDepApply tm ta tb a b).depsOf id = tm.depsOf id := by
  unfold addDepApply
  unfold addDepStep3
  by_cases hc : (tm.auto_block_on_dependency && !(tb.status == TaskStatus.completed)
      && (ta.status == TaskStatus.pending)) = true
  · rw [if_pos hc, depsOf_modifyTask_ne _ a id setBlocked (fun _ => rfl) h,
      addDepStep2_depsOf]
    unfold TaskManager.depsOf
    rw [addDepStep1_get_ne tm ta a b id h]
  · rw [if_neg hc, addDepStep2_depsOf]
    unfold TaskManager.depsOf
    rw [addDepStep1_get_ne tm ta a b id h]

theorem addDepApply_length (tm : TaskManager) (ta tb : Task) (a b : String) :
    (addDepApply tm ta tb a b).tasks.length = tm.tasks.length := by
  unfold addDepApply
  rw [addDepStep3_length, addDepStep2_length, addDepStep1_length]

theorem addDepApply_auto (tm : TaskManager) (ta tb : Task) (a b : String) :
    (addDepApply tm ta tb a b).auto_block_on_dependency
      = tm.auto_block_on_dependency := by
  unfold addDepApply
  rw [addDepStep3_auto, addDepStep2_auto, addDepStep1_auto]

theorem mem_depAppended (ta : Task) (b : String) :
    b ∈ (depAppended ta b).depends_on := by
  unfold depAppended
  by_cases hc : ta.depends_on.contains b
  · rw [if_pos hc]
    simpa using hc
  · rw [if_neg hc]
    simp [appendDep]

theorem mem_depTaskFinal (ab : Bool) (ta tb : Task) (b : String) :
    b ∈ (depTaskFinal ab ta tb b).depends_on := by
  unfold depTaskFinal
  by_cases hc : autoBlockCond ab ta tb
  · rw [if_pos hc]
    exact mem_depAppended ta b
  · rw [if_neg hc]
    exact mem_depAppended ta b

theorem mem_blocksAppended (tb : Task) (a : String) :
    a ∈ (blocksAppended tb a).blocks := by
  unfold blocksAppended
  by_cases hc : tb.blocks.contains a
  · rw [if_pos hc]
    simpa using hc
  · rw [if_neg hc]
    simp [appendBlock]

theorem depAppended_status (ta : Task) (b : String) :
    (depAppended ta b).status = ta.status := by
  unfold depAppended appendDep
  by_cases hc : ta.depends_on.contains b
  · rw [if_pos hc]
  · rw [if_neg hc]

theorem blocksAppended_status (tb : Task) (a : String) :
    (blocksAppended tb a).status = tb.status := by
  unfold blocksAppended appendBlock
  by_cases hc : tb.blocks.contains a
  · rw [if_pos hc]
  · rw [if_neg hc]

theorem depTaskFinal_status (ab : Bool) (ta tb : Task) (b : String) :
    (depTaskFinal ab ta tb b).status
      = (if autoBlockCond ab ta tb then TaskStatus.blocked else ta.status) := by
  unfold depTaskFinal setBlocked
  by_cases hc : autoBlockCond ab ta tb
  · rw [if_pos hc, if_pos hc]
  · rw [if_neg hc, if_neg hc, depAppended_status]

theorem addDepApply_idem (tmA : TaskManager) (ta' tb' : Task) (a b : String)
    (h1 : ta'.depends_on.contains b = true)
    (h2 : tb'.blocks.contains a = true)
    (h3 : (tmA.auto_block_on_dependency && !(tb'.status == TaskStatus.completed)
      && (ta'.status == TaskStatus.pending)) = false) :
    addDepApply tmA ta' tb' a b = tmA := by
  unfold addDepApply addDepStep1 addDepStep2 addDepStep3
  rw [if_pos h1, if_pos h2, if_neg (by simp [h3])]

end AddDependencyLemmas

/-- C2 claim theorem: after a successful `addDependency(A,B)`, the reverse
call `addDependency(B,A)` fails with the cycle error, and the failed call
returns the manager state exactly as it was (the cycle check runs before
any mutation). -/
theorem C2_reverse_dependency_cycle_rejected (tm tm' : TaskManager) (a b : String)
    (h : tm.add_dependency a b = (tm', none)) :
    tm'.add_dependency b a = (tm', some DepError.cycleDetected) := by
  obtain ⟨ta, tb, hga, hgb, hab, hcyc, rfl⟩ := add_dependency_ok_shape tm tm' a b h
  have hga' := addDepApply_get_a tm ta tb a b hab hga
  have hgb' := addDepApply_get_b tm ta tb a b hab hgb
  have hmem : b ∈ (addDepApply tm ta tb a b).depsOf a := by
    unfold TaskManager.depsOf
    rw [hga']
    exact mem_depTaskFinal _ ta tb b
  have hcyc2 : (addDepApply tm ta tb a b).has_dependency_cycle b a = true :=
    has_dependency_cycle_of_mem _ b a (by simp [hab]) hmem
  simp only [TaskManager.add_dependency, hga', hgb']
  rw [if_neg (by simp [Ne.symm hab]), if_pos hcyc2]

/-- C2 witness: two fresh tasks, forward edge added, reverse edge refused
with the state unchanged. -/
theorem C2_reverse_dependency_cycle_rejected_witness :
    (TaskManager.add_dependency
        ((TaskManager.mk [{ id := "a" }, { id := "b" }] 100 true).add_dependency
          "a" "b").1 "b" "a")
      = (((TaskManager.mk [{ id := "a" }, { id := "b" }] 100 true).add_dependency
          "a" "b").1, some DepError.cycleDetected) :=
  C2_reverse_dependency_cycle_rejected
    (TaskManager.mk [{ id := "a" }, { id := "b" }] 100 true)
    ((TaskManager.mk [{ id := "a" }, { id := "b" }] 100 true).add_dependency
      "a" "b").1 "a" "b" (by decide)

/-- C10 claim theorem: `add_dependency` is idempotent. After a successful
`addDependency(A,B)`, repeating the same call succeeds and returns the
manager state exactly as it was: no list gains a duplicate entry and no
status changes. -/
theorem C10_add_dependency_idempotent (tm tm' : TaskManager) (a b : String)
    (h : tm.add_dependency a b = (tm', none)) :
    tm'.add_dependency a b = (tm', none) := by
  obtain ⟨ta, tb, hga, hgb, hab, hcyc, rfl⟩ := add_dependency_ok_shape tm tm' a b h
  have hga' := addDepApply_get_a tm ta tb a b hab hga
  have hgb' := addDepApply_get_b tm ta tb a b hab hgb
  have hdeps := addDepApply_depsOf_ne tm ta tb a b
  have hcyc2 : (addDepApply tm ta tb a b).has_dependency_cycle a b = false := by
    unfold TaskManager.has_dependency_cycle
    rw [addDepApply_length,
      hasCycleDfs_congr (addDepApply tm ta tb a b) tm a (fun id hid => hdeps id hid)]
    unfold TaskManager.has_dependency_cycle at hcyc
    exact hcyc
  have h3 : ((addDepApply tm ta tb a b).auto_block_on_dependency
      && !((blocksAppended tb a).status == TaskStatus.completed)
      && ((depTaskFinal tm.auto_block_on_dependency ta tb b).status
            == TaskStatus.pending)) = false := by
    rw [addDepApply_auto, blocksAppended_status, depTaskFinal_status]
    by_cases hC : autoBlockCond tm.auto_block_on_dependency ta tb = true
    · rw [if_pos hC]
      simp
    · rw [if_neg hC]
      have hC2 : autoBlockCond tm.auto_block_on_dependency ta tb = false := by
        simpa using hC
      unfold autoBlockCond at hC2
      exact hC2
  have happly := addDepApply_idem (addDepApply tm ta tb a b)
    (depTaskFinal tm.auto_block_on_dependency ta tb b) (blocksAppended tb a) a b
    (by simpa using mem_depTaskFinal tm.auto_block_on_dependency ta tb b)
    (by simpa using mem_blocksAppended tb a) h3
  simp only [TaskManager.add_dependency, hga', hgb']
  rw [if_neg (by simp [hab]), if_neg (by simp [hcyc2]), happly]

/-- C10 witness: repeating a concrete successful `add_dependency` returns
the state unchanged. -/
theorem C10_add_dependency_idempotent_witness :
    (TaskManager.add_dependency
        ((TaskManager.mk [{ id := "a" }, { id := "b" }] 100 true).add_dependency
          "a" "b").1 "a" "b")
      = (((TaskManager.mk [{ id := "a" }, { id := "b" }] 100 true).add_dependency
          "a" "b").1, none) :=
  C10_add_dependency_idempotent
    (TaskManager.mk [{ id := "a" }, { id := "b" }] 100 true)
    ((TaskManager.mk [{ id := "a" }, { id := "b" }] 100 true).add_dependency
      "a" "b").1 "a" "b" (by decide)

/-- C7 claim theorem: with `softInterruptLimit = 2`, starting from the reset
state, two soft requests leave the effective type soft with request count
2; a third request of any type escalates to hard with count 3; and `reset`
returns the count to 0 and the type to none. -/
theorem C7_interrupt_escalation (c : InterruptController)
    (h : c.soft_interrupt_limit = 2)
    (ty3 : InterruptType) (r1 r2 r3 : InterruptReason) (m1 m2 m3 : Option String) :
    let c1 := (c.reset).request_interrupt .soft r1 m1
    let c2 := c1.request_interrupt .soft r2 m2
    let c3 := c2.request_interrupt ty3 r3 m3
    (c2.state.interrupt_type = .soft ∧ c2.interrupt_count = 2) ∧
    (c3.state.interrupt_type = .hard ∧ c3.interrupt_count = 3) ∧
    ((c3.reset).interrupt_count = 0 ∧ (c3.reset).state.interrupt_type = .none) := by
  simp [InterruptController.reset, InterruptController.request_interrupt, h]

/-- C7 witness: the claim instantiated at the default-configured
controller. -/
theorem C7_interrupt_escalation_witness :
    let c : InterruptController := {}
    let c1 := (c.reset).request_interrupt .soft .user_request Option.none
    let c2 := c1.request_interrupt .soft .user_request Option.none
    let c3 := c2.request_interrupt .soft .user_request Option.none
    (c2.state.interrupt_type = .soft ∧ c2.interrupt_count = 2) ∧
    (c3.state.interrupt_type = .hard ∧ c3.interrupt_count = 3) ∧
    ((c3.reset).interrupt_count = 0 ∧ (c3.reset).state.interrupt_type = .none) :=
  C7_interrupt_escalation {} rfl .soft .user_request .user_request .user_request
    Option.none Option.none Option.none

/-- C9 claim evaluation: executing a fresh pending task whose reasoning
loop is interrupted at the first checkpoint leaves the task in the
terminal status completed with BOTH its result (the interrupt sentinel
returned by the loop) and its error ("Interrupted by user", written by
`_handle_interrupt`) populated, violating the exactly-one exit contract
the claim states. -/
theorem C9_both_result_and_error_populated :
    (execute_task { tasks := [{ id := "a" }] } "a"
        (.interrupted Option.none "[Execution interrupted by user]")).get_task "a"
      = some { id := "a", status := .completed,
               result := some "[Execution interrupted by user]",
               error := some "Interrupted by user" } := by
  decide

section UnblockLemmas

theorem idCompleted_iff (tm : TaskManager) (d : String) :
    tm.idCompleted d = true ↔ IdCompletedP tm d := by
  unfold TaskManager.idCompleted IdCompletedP
  cases h : tm.get_task d <;> simp [h]

theorem UnblockRel.rfl (tm : TaskManager) : UnblockRel tm tm := fun _ => Or.inl (Eq.refl _)

theorem UnblockRel.idCompleted_eq {tm s : TaskManager} (h : UnblockRel tm s)
    (d : String) : s.idCompleted d = tm.idCompleted d := by
  rcases h d with h1 | ⟨t, h1, h2, h3⟩
  · unfold TaskManager.idCompleted
    rw [h1]
  · unfold TaskManager.idCompleted
    rw [h1, h3]
    simp [setPending, h2]

theorem UnblockRel.depsAll_eq {tm s : TaskManager} (h : UnblockRel tm s)
    (l : List String) : l.all s.idCompleted = l.all tm.idCompleted := by
  rw [show s.idCompleted = tm.idCompleted from funext h.idCompleted_eq]

theorem UnblockRel.step {tm s : TaskManager} (h : UnblockRel tm s) (d : String) :
    UnblockRel tm (unblockStep s d) := by
  intro id
  cases hgd : s.get_task d with
  | none =>
    simp only [unblockStep, hgd]
    exact h id
  | some bt =>
    simp only [unblockStep, hgd]
    by_cases hbs : (bt.status == TaskStatus.blocked) = true
    · rw [if_pos hbs]
      by_cases hall : bt.depends_on.all s.idCompleted = true
      · rw [if_pos hall]
        by_cases hid : id = d
        · subst hid
          rw [get_task_modifyTask_self s id setPending (fun _ => Eq.refl _), hgd]
          right
          rcases h id with h1 | ⟨t, h1, h2, h3⟩
          · exact ⟨bt, by rw [← h1, hgd], by simpa using hbs, Eq.refl _⟩
          · rw [h3] at hgd
            injection hgd with he
            rw [← he] at hbs
            simp [setPending] at hbs
        · rw [get_task_modifyTask_ne s d id setPending (fun _ => Eq.refl _) hid]
          exact h id
      · rw [if_neg hall]
        exact h id
    · rw [if_neg hbs]
      exact h id

theorem fold_unblock_pending_stable (L : List String) (s : TaskManager)
    (bid : String) (u : Task) (hu : s.get_task bid = some u)
    (hp : u.status = TaskStatus.pending) :
    (L.foldl unblockStep s).get_task bid = some u := by
  induction L generalizing s with
  | nil => exact hu
  | cons d L ih =>
    simp only [List.foldl_cons]
    apply ih
    cases hgd : s.get_task d with
    | none =>
      simp only [unblockStep, hgd]
      exact hu
    | some bt =>
      simp only [unblockStep, hgd]
      by_cases hbs : (bt.status == TaskStatus.blocked) = true
      · rw [if_pos hbs]
        by_cases hall : bt.depends_on.all s.idCompleted = true
        · rw [if_pos hall]
          by_cases hid : bid = d
          · subst hid
            rw [hu] at hgd
            injection hgd with he
            rw [← he, hp] at hbs
            simp at hbs
          · rw [get_task_modifyTask_ne s d bid setPending (fun _ => Eq.refl _) hid]
            exact hu
        · rw [if_neg hall]
          exact hu
      · rw [if_neg hbs]
        exact hu

theorem fold_unblock_skip (tm : TaskManager) (L : List String) (s : TaskManager)
    (hrel : UnblockRel tm s) (bid : String) (bt : Task)
    (hbt : s.get_task bid = some bt) (hall : bt.depends_on.all tm.idCompleted = false) :
    (L.foldl unblockStep s).get_task bid = some bt := by
  induction L generalizing s with
  | nil => exact hbt
  | cons d L ih =>
    simp only [List.foldl_cons]
    refine ih _ (hrel.step d) ?_
    cases hgd : s.get_task d with
    | none =>
      simp only [unblockStep, hgd]
      exact hbt
    | some btd =>
      simp only [unblockStep, hgd]
      by_cases hbs : (btd.status == TaskStatus.blocked) = true
      · rw [if_pos hbs]
        by_cases hall2 : btd.depends_on.all s.idCompleted = true
        · rw [if_pos hall2]
          by_cases hid : bid = d
          · subst hid
            rw [hbt] at hgd
            injection hgd with he
            subst he
            rw [hrel.depsAll_eq bt.depends_on, hall] at hall2
            cases hall2
          · rw [get_task_modifyTask_ne s d bid setPending (fun _ => Eq.refl _) hid]
            exact hbt
        · rw [if_neg hall2]
          exact hbt
      · rw [if_neg hbs]
        exact hbt

theorem fold_unblock_pos (tm : TaskManager) (L : List String) (s : TaskManager)
    (hrel : UnblockRel tm s) (bid : String) (hmem : bid ∈ L) (bt : Task)
    (hbt : tm.get_task bid = some bt) (hblk : bt.status = TaskStatus.blocked)
    (hall : bt.depends_on.all tm.idCompleted = true) :
    (L.foldl unblockStep s).get_task bid = some (setPending bt) := by
  induction L generalizing s with
  | nil => cases hmem
  | cons d L ih =>
    simp only [List.foldl_cons]
    rcases List.mem_cons.mp hmem with h1 | h2
    · subst h1
      rcases hrel bid with hs | ⟨t, ht1, ht2, ht3⟩
      · have hs2 : s.get_task bid = some bt := by rw [hs, hbt]
        have hstep : (unblockStep s bid).get_task bid = some (setPending bt) := by
          simp only [unblockStep, hs2]
          rw [if_pos (by simp [hblk]),
            if_pos (by rw [hrel.depsAll_eq bt.depends_on]; exact hall),
            get_task_modifyTask_self s bid setPending (fun _ => Eq.refl _), hs2]
          rfl
        exact fold_unblock_pending_stable L _ bid _ hstep (Eq.refl _)
      · rw [hbt] at ht1
        injection ht1 with he
        subst he
        have hstep : (unblockStep s bid).get_task bid = some (setPending bt) := by
          simp only [unblockStep, ht3]
          rw [if_neg (by simp [setPending])]
          exact ht3
        exact fold_unblock_pending_stable L _ bid _ hstep (Eq.refl _)
    · exact ih _ (hrel.step d) h2

end UnblockLemmas

/-- C3 claim theorem: when completion propagation runs for a completed
task, every task listed in its `blocks` set that is currently blocked and
whose own dependencies are now all completed is set from blocked back to
pending; a blocked dependent with any unmet dependency keeps its entry
(status included) unchanged. -/
theorem C3_completion_unblocks_dependents (tm : TaskManager) (cid : String)
    (ct : Task) (hct : tm.get_task cid = some ct) (bid : String)
    (hmem : bid ∈ ct.blocks) (bt : Task) (hbt : tm.get_task bid = some bt)
    (hblk : bt.status = TaskStatus.blocked) :
    ((∀ d ∈ bt.depends_on, IdCompletedP tm d) →
      (unblock_dependent_tasks tm cid).get_task bid = some (setPending bt)) ∧
    ((¬ ∀ d ∈ bt.depends_on, IdCompletedP tm d) →
      (unblock_dependent_tasks tm cid).get_task bid = some bt) := by
  have hunf : unblock_dependent_tasks tm cid = ct.blocks.foldl unblockStep tm := by
    simp only [unblock_dependent_tasks, hct]
  constructor
  · intro hdeps
    rw [hunf]
    refine fold_unblock_pos tm ct.blocks tm (UnblockRel.rfl tm) bid hmem bt hbt hblk ?_
    rw [List.all_eq_true]
    intro d hd
    exact (idCompleted_iff tm d).mpr (hdeps d hd)
  · intro hdeps
    rw [hunf]
    refine fold_unblock_skip tm ct.blocks tm (UnblockRel.rfl tm) bid bt hbt ?_
    rw [← Bool.not_eq_true, List.all_eq_true]
    intro hc
    exact hdeps (fun d hd => (idCompleted_iff tm d).mp (hc d hd))

/-- C3 witness: completing "c" unblocks the satisfied dependent "x" and
leaves the dependent "y" (waiting also on the pending "z") untouched. -/
theorem C3_completion_unblocks_dependents_witness :
    (unblock_dependent_tasks
        (TaskManager.mk
          [{ id := "c", status := .completed, blocks := ["x", "y"] },
           { id := "x", status := .blocked, depends_on := ["c"] },
           { id := "y", status := .blocked, depends_on := ["c", "z"] },
           { id := "z" }] 100 true) "c").get_task "x"
      = some (setPending { id := "x", status := .blocked, depends_on := ["c"] }) ∧
    (unblock_dependent_tasks
        (TaskManager.mk
          [{ id := "c", status := .completed, blocks := ["x", "y"] },
           { id := "x", status := .blocked, depends_on := ["c"] },
           { id := "y", status := .blocked, depends_on := ["c", "z"] },
           { id := "z" }] 100 true) "c").get_task "y"
      = some { id := "y", status := .blocked, depends_on := ["c", "z"] } := by
  refine ⟨(C3_completion_unblocks_dependents
      (TaskManager.mk
        [{ id := "c", status := .completed, blocks := ["x", "y"] },
         { id := "x", status := .blocked, depends_on := ["c"] },
         { id := "y", status := .blocked, depends_on := ["c", "z"] },
         { id := "z" }] 100 true) "c"
      { id := "c", status := .completed, blocks := ["x", "y"] } (by decide)
      "x" (by decide)
      { id := "x", status := .blocked, depends_on := ["c"] } (by decide)
      (by decide)).1 (by decide),
    (C3_completion_unblocks_dependents
      (TaskManager.mk
        [{ id := "c", status := .completed, blocks := ["x", "y"] },
         { id := "x", status := .blocked, depends_on := ["c"] },
         { id := "y", status := .blocked, depends_on := ["c", "z"] },
         { id := "z" }] 100 true) "c"
      { id := "c", status := .completed, blocks := ["x", "y"] } (by decide)
      "y" (by decide)
      { id := "y", status := .blocked, depends_on := ["c", "z"] } (by decide)
      (by decide)).2 (by decide)⟩

section ParentCompletionLemmas

theorem check_parent_unfold_complete (fuel : Nat) (tm : TaskManager) (pid : String)
    (p : Task) (hp : tm.get_task pid = some p)
    (h1 : p.status = TaskStatus.in_progress) (h2 : p.subtasks ≠ [])
    (h3 : p.subtasks.all tm.idCompleted = true) :
    check_parent_completion (fuel + 1) tm pid =
      (match p.parent_id with
       | some gp => check_parent_completion fuel
           (tm.modifyTask pid (completeWith (autoCompleteResult p.subtasks.length))) gp
       | Option.none =>
           tm.modifyTask pid (completeWith (autoCompleteResult p.subtasks.length))) := by
  simp only [check_parent_completion, hp]
  rw [if_pos (by simp [h1]), if_pos (by simp [h3, h2])]

theorem check_parent_preserve (fuel : Nat) (tm : TaskManager) (pid : String) :
    ∀ (id : String) (t : Task), tm.get_task id = some t →
      ¬(t.status = TaskStatus.in_progress) →
      (check_parent_completion fuel tm pid).get_task id = some t := by
  induction fuel generalizing tm pid with
  | zero =>
    intro id t h _
    exact h
  | succ f ih =>
    intro id t h hn
    cases hp : tm.get_task pid with
    | none =>
      simp only [check_parent_completion, hp]
      exact h
    | some p =>
      simp only [check_parent_completion, hp]
      by_cases h1 : (p.status == TaskStatus.in_progress) = true
      · rw [if_pos h1]
        by_cases h2 : (p.subtasks.all tm.idCompleted && !p.subtasks.isEmpty) = true
        · rw [if_pos h2]
          have hne : id ≠ pid := by
            intro he
            subst he
            rw [h] at hp
            injection hp with he2
            subst he2
            exact hn (by simpa using h1)
          have hpre : (tm.modifyTask pid
              (completeWith (autoCompleteResult p.subtasks.length))).get_task id
                = some t := by
            rw [get_task_modifyTask_ne tm pid id
              (completeWith (autoCompleteResult p.subtasks.length))
              (fun _ => Eq.refl _) hne]
            exact h
          cases hgp : p.parent_id with
          | none => exact hpre
          | some gp => exact ih _ gp id t hpre hn
        · rw [if_neg h2]
          exact h
      · rw [if_neg h1]
        exact h

theorem check_parent_completes (fuel : Nat) (tm : TaskManager) (pid : String)
    (p : Task) (hp : tm.get_task pid = some p)
    (h1 : p.status = TaskStatus.in_progress) (h2 : p.subtasks ≠ [])
    (h3 : p.subtasks.all tm.idCompleted = true) :
    (check_parent_completion (fuel + 1) tm pid).get_task pid
      = some (completeWith (autoCompleteResult p.subtasks.length) p) := by
  rw [check_parent_unfold_complete fuel tm pid p hp h1 h2 h3]
  have hga : (tm.modifyTask pid
      (completeWith (autoCompleteResult p.subtasks.length))).get_task pid
        = some (completeWith (autoCompleteResult p.subtasks.length) p) := by
    rw [get_task_modifyTask_self tm pid
      (completeWith (autoCompleteResult p.subtasks.length)) (fun _ => Eq.refl _), hp]
    rfl
  cases hgp : p.parent_id with
  | none => exact hga
  | some gp =>
    exact check_parent_preserve fuel _ gp pid _ hga (by simp [completeWith])

theorem check_parent_skip (fuel : Nat) (tm : TaskManager) (pid : String)
    (p : Task) (hp : tm.get_task pid = some p)
    (h : ¬(p.status = TaskStatus.in_progress)
        ∨ p.subtasks.all tm.idCompleted = false) :
    check_parent_completion (fuel + 1) tm pid = tm := by
  simp only [check_parent_completion, hp]
  rcases h with h | h
  · rw [if_neg (by simpa using h)]
  · by_cases h1 : (p.status == TaskStatus.in_progress) = true
    · rw [if_pos h1, if_neg (by simp [h])]
    · rw [if_neg h1]

end ParentCompletionLemmas

/-- C4 claim theorem: when the last non-completed subtask of a parent
reaches completed and the parent is in progress with a nonempty subtask
list, `_check_parent_completion` marks the parent completed with the
synthesized subtask-count result, and applies the same check recursively to
the grandparent (which auto-completes in turn when its own subtasks are
then all completed); a parent that is not in progress, or that still has a
non-completed subtask, is left untouched (the whole state is returned
unchanged). -/
theorem C4_parent_auto_completion (tm : TaskManager) (fuel : Nat) (pid : String)
    (p : Task) (hp : tm.get_task pid = some p) :
    (p.status = TaskStatus.in_progress → p.subtasks ≠ [] →
      (∀ s ∈ p.subtasks, IdCompletedP tm s) →
      ((check_parent_completion (fuel + 1) tm pid).get_task pid
          = some (completeWith (autoCompleteResult p.subtasks.length) p)) ∧
      (∀ gp g, p.parent_id = some gp → gp ≠ pid → tm.get_task gp = some g →
        g.status = TaskStatus.in_progress → g.subtasks ≠ [] →
        (∀ s ∈ g.subtasks, s = pid ∨ IdCompletedP tm s) →
        (check_parent_completion (fuel + 2) tm pid).get_task gp
          = some (completeWith (autoCompleteResult g.subtasks.length) g))) ∧
    ((p.status ≠ TaskStatus.in_progress ∨ ∃ s ∈ p.subtasks, ¬ IdCompletedP tm s) →
      check_parent_completion (fuel + 1) tm pid = tm) := by
  constructor
  · intro h1 h2 h3
    have h3b : p.subtasks.all tm.idCompleted = true := by
      rw [List.all_eq_true]
      intro s hs
      exact (idCompleted_iff tm s).mpr (h3 s hs)
    constructor
    · exact check_parent_completes fuel tm pid p hp h1 h2 h3b
    · intro gp g hgp hne hg hg1 hg2 hg3
      rw [check_parent_unfold_complete (fuel + 1) tm pid p hp h1 h2 h3b, hgp]
      have hg' : (tm.modifyTask pid
          (completeWith (autoCompleteResult p.subtasks.length))).get_task gp
            = some g := by
        rw [get_task_modifyTask_ne tm pid gp
          (completeWith (autoCompleteResult p.subtasks.length))
          (fun _ => Eq.refl _) hne]
        exact hg
      have hall : g.subtasks.all (tm.modifyTask pid
          (completeWith (autoCompleteResult p.subtasks.length))).idCompleted
            = true := by
        rw [List.all_eq_true]
        intro s hs
        by_cases hspid : s = pid
        · subst hspid
          unfold TaskManager.idCompleted
          rw [get_task_modifyTask_self tm s
            (completeWith (autoCompleteResult p.subtasks.length))
            (fun _ => Eq.refl _), hp]
          simp [completeWith]
        · unfold TaskManager.idCompleted
          rw [get_task_modifyTask_ne tm pid s
            (completeWith (autoCompleteResult p.subtasks.length))
            (fun _ => Eq.refl _) hspid]
          rcases hg3 s hs with h | ⟨dt, hdt, hst⟩
          · exact absurd h hspid
          · simp [hdt, hst]
      exact check_parent_completes fuel _ gp g hg' hg1 hg2 hall
  · intro h
    apply check_parent_skip fuel tm pid p hp
    rcases h with h | ⟨s, hs, hns⟩
    · exact Or.inl h
    · right
      rw [← Bool.not_eq_true, List.all_eq_true]
      intro hc
      exact hns ((idCompleted_iff tm s).mp (hc s hs))

/-- C4 witness: completing the last subtask of the in-progress parent "p"
auto-completes "p" with the synthesized result, and the recursive re-check
then auto-completes the in-progress grandparent "g" as well. -/
theorem C4_parent_auto_completion_witness :
    ((check_parent_completion 2
        (TaskManager.mk
          [{ id := "g", status := .in_progress, subtasks := ["p"] },
           { id := "p", status := .in_progress, parent_id := some "g",
             subtasks := ["s"] },
           { id := "s", status := .completed, parent_id := some "p" }] 100 true)
        "p").get_task "p"
      = some (completeWith (autoCompleteResult 1)
          { id := "p", status := .in_progress, parent_id := some "g",
            subtasks := ["s"] })) ∧
    ((check_parent_completion 3
        (TaskManager.mk
          [{ id := "g", status := .in_progress, subtasks := ["p"] },
           { id := "p", status := .in_progress, parent_id := some "g",
             subtasks := ["s"] },
           { id := "s", status := .completed, parent_id := some "p" }] 100 true)
        "p").get_task "g"
      = some (completeWith (autoCompleteResult 1)
          { id := "g", status := .in_progress, subtasks := ["p"] })) := by
  have h := (C4_parent_auto_completion
    (TaskManager.mk
      [{ id := "g", status := .in_progress, subtasks := ["p"] },
       { id := "p", status := .in_progress, parent_id := some "g",
         subtasks := ["s"] },
       { id := "s", status := .completed, parent_id := some "p" }] 100 true)
    1 "p"
    { id := "p", status := .in_progress, parent_id := some "g", subtasks := ["s"] }
    (by decide)).1 (by decide) (by decide) (by decide)
  exact ⟨h.1, h.2 "g" { id := "g", status := .in_progress, subtasks := ["p"] }
    (by decide) (by decide) (by decide) (by decide) (by decide) (by decide)⟩

section NextExecutableLemmas

theorem parent_check_iff (tm : TaskManager) (t : Task) :
    (match t.parent_id with
     | Option.none => true
     | some pid =>
       match tm.get_task pid with
       | some p => p.status == TaskStatus.in_progress
           || p.status == TaskStatus.completed
       | Option.none => false) = true ↔ ParentReadyP tm t := by
  unfold ParentReadyP
  cases hq : t.parent_id with
  | none =>
    constructor
    · intro _ pid h
      cases h
    · intro _
      rfl
  | some q =>
    dsimp only
    cases hg : tm.get_task q with
    | none =>
      constructor
      · intro h
        exact Bool.noConfusion h
      · intro hall
        obtain ⟨pt, hpt, _⟩ := hall q (Eq.refl _)
        rw [hg] at hpt
        cases hpt
    | some p =>
      constructor
      · intro h pid hpid
        injection hpid with he
        subst he
        exact ⟨p, hg, by simpa using h⟩
      · intro hall
        obtain ⟨pt, hpt, hst⟩ := hall q (Eq.refl _)
        rw [hg] at hpt
        injection hpt with he
        subst he
        simpa using hst

theorem is_task_executable_iff (tm : TaskManager) (t : Task) :
    tm.is_task_executable t = true ↔ ExecutableSpec tm t := by
  unfold TaskManager.is_task_executable ExecutableSpec
  rw [Bool.and_eq_true, Bool.and_eq_true]
  rw [parent_check_iff tm t]
  constructor
  · rintro ⟨⟨hd, hs⟩, hp⟩
    refine ⟨?_, ?_, hp⟩
    · intro d hdm
      exact (idCompleted_iff tm d).mp ((List.all_eq_true.mp hd) d hdm)
    · intro d hdm
      exact (idCompleted_iff tm d).mp ((List.all_eq_true.mp hs) d hdm)
  · rintro ⟨hd, hs, hp⟩
    refine ⟨⟨?_, ?_⟩, hp⟩
    · rw [List.all_eq_true]
      intro d hdm
      exact (idCompleted_iff tm d).mpr (hd d hdm)
    · rw [List.all_eq_true]
      intro d hdm
      exact (idCompleted_iff tm d).mpr (hs d hdm)

theorem insertionSort_head_decomp {α : Type} (r : α → α → Prop) [DecidableRel r]
    (l : List α) (t : α) (h : (l.insertionSort r).head? = some t) :
    ∃ pre post, l = pre ++ t :: post ∧ ∀ u ∈ pre, ¬ r u t := by
  induction l with
  | nil => cases h
  | cons x xs ih =>
    rw [List.insertionSort] at h
    cases hxs : List.insertionSort r xs with
    | nil =>
      rw [hxs] at h
      rw [List.orderedInsert] at h
      injection h with he
      subst he
      exact ⟨[], xs, Eq.refl _, by simp⟩
    | cons y ys =>
      rw [hxs] at h
      rw [List.orderedInsert] at h
      by_cases hr : r x y
      · rw [if_pos hr] at h
        injection h with he
        subst he
        exact ⟨[], xs, Eq.refl _, by simp⟩
      · rw [if_neg hr] at h
        injection h with he
        subst he
        obtain ⟨pre, post, heq, hpre⟩ := ih (by rw [hxs]; rfl)
        refine ⟨x :: pre, post, by rw [heq]; rfl, ?_⟩
        intro u hu
        rcases List.mem_cons.mp hu with h1 | h2
        · subst h1
          exact hr
        · exact hpre u h2

theorem insertionSort_head_min {α : Type} (r : α → α → Prop) [DecidableRel r]
    [IsTotal α r] [IsTrans α r] (l : List α) (t : α)
    (h : (l.insertionSort r).head? = some t) : ∀ u ∈ l, r t u := by
  intro u hu
  have hsorted := List.sorted_insertionSort r l
  cases hs : List.insertionSort r l with
  | nil =>
    rw [hs] at h
    cases h
  | cons y ys =>
    rw [hs] at h
    injection h with he
    subst he
    have hu2 : u ∈ y :: ys := by
      rw [← hs]
      exact ((List.perm_insertionSort r l).symm.mem_iff).mp hu
    rcases List.mem_cons.mp hu2 with h1 | h2
    · subst h1
      rcases IsTotal.total (r := r) u u with h3 | h3 <;> exact h3
    · rw [hs] at hsorted
      exact (List.sorted_cons.mp hsorted).1 u h2

end NextExecutableLemmas

/-- C1 claim theorem: `get_next_executable_task` returns only a pending
task of the collection that is executable in the spec sense (dependencies
completed, subtasks completed, parent in progress or completed); the
returned task has minimal priority rank among all executable pending tasks
and is the earliest such task in discovery order (every executable task
listed before it ranks strictly worse); and it returns none exactly when no
pending task of the collection is executable. -/
theorem C1_next_executable_spec (tm : TaskManager) :
    (∀ t, tm.get_next_executable_task = some t →
      t.status = TaskStatus.pending ∧ t ∈ tm.tasks ∧ ExecutableSpec tm t ∧
      (∀ u ∈ tm.executableTasks,
        priorityOrder t.priority ≤ priorityOrder u.priority) ∧
      (∃ pre post, tm.executableTasks = pre ++ t :: post ∧
        ∀ u ∈ pre, priorityOrder t.priority < priorityOrder u.priority)) ∧
    (tm.get_next_executable_task = none ↔
      ∀ t ∈ tm.tasks, t.status = TaskStatus.pending → ¬ ExecutableSpec tm t) := by
  have hexiff : (tm.executableTasks = [])
      ↔ ∀ t ∈ tm.tasks, t.status = TaskStatus.pending → ¬ ExecutableSpec tm t := by
    unfold TaskManager.executableTasks TaskManager.list_tasks_status
    rw [List.filter_eq_nil_iff]
    constructor
    · intro h t ht hp hex
      exact h t (List.mem_filter.mpr ⟨ht, by simp [hp]⟩)
        ((is_task_executable_iff tm t).mpr hex)
    · intro h t ht hex
      obtain ⟨ht2, hp⟩ := List.mem_filter.mp ht
      exact h t ht2 (by simpa using hp) ((is_task_executable_iff tm t).mp hex)
  constructor
  · intro t h
    unfold TaskManager.get_next_executable_task at h
    have hmem : t ∈ tm.executableTasks := by
      have hm : t ∈ List.insertionSort taskPriorityLE tm.executableTasks := by
        cases hs : List.insertionSort taskPriorityLE tm.executableTasks with
        | nil =>
          rw [hs] at h
          cases h
        | cons y ys =>
          rw [hs] at h
          injection h with he
          subst he
          exact List.mem_cons_self _ _
      exact ((List.perm_insertionSort taskPriorityLE tm.executableTasks).mem_iff).mp hm
    have hpend : t ∈ tm.tasks ∧ t.status = TaskStatus.pending := by
      have h1 := (List.mem_filter.mp hmem).1
      have h2 := List.mem_filter.mp h1
      exact ⟨h2.1, by simpa using h2.2⟩
    have hexec : ExecutableSpec tm t :=
      (is_task_executable_iff tm t).mp (List.mem_filter.mp hmem).2
    refine ⟨hpend.2, hpend.1, hexec, ?_, ?_⟩
    · intro u hu
      exact insertionSort_head_min taskPriorityLE tm.executableTasks t h u hu
    · obtain ⟨pre, post, heq, hpre⟩ :=
        insertionSort_head_decomp taskPriorityLE tm.executableTasks t h
      refine ⟨pre, post, heq, ?_⟩
      intro u hu
      exact Nat.lt_of_not_le (fun hc => hpre u hu hc)
  · unfold TaskManager.get_next_executable_task
    rw [List.head?_eq_none_iff]
    constructor
    · intro h
      apply hexiff.mp
      have := (List.perm_insertionSort taskPriorityLE tm.executableTasks).length_eq
      rw [h] at this
      exact List.length_eq_zero.mp this.symm
    · intro h
      rw [hexiff.mpr h]
      rfl

/-- C1 witness: in a set with one medium and one critical pending task, the
critical one is picked, is executable, minimal, and first among
minimal-rank executables. -/
theorem C1_next_executable_spec_witness :
    ({ id := "b", priority := .critical } : Task).status = TaskStatus.pending ∧
    ({ id := "b", priority := .critical } : Task)
      ∈ (TaskManager.mk [{ id := "a" }, { id := "b", priority := .critical }]
          100 true).tasks ∧
    ExecutableSpec
      (TaskManager.mk [{ id := "a" }, { id := "b", priority := .critical }] 100 true)
      { id := "b", priority := .critical } ∧
    (∀ u ∈ (TaskManager.mk [{ id := "a" }, { id := "b", priority := .critical }]
        100 true).executableTasks,
      priorityOrder ({ id := "b", priority := .critical } : Task).priority
        ≤ priorityOrder u.priority) ∧
    (∃ pre post,
      (TaskManager.mk [{ id := "a" }, { id := "b", priority := .critical }]
        100 true).executableTasks
        = pre ++ ({ id := "b", priority := .critical } : Task) :: post ∧
      ∀ u ∈ pre,
        priorityOrder ({ id := "b", priority := .critical } : Task).priority
          < priorityOrder u.priority) :=
  (C1_next_executable_spec
    (TaskManager.mk [{ id := "a" }, { id := "b", priority := .critical }]
      100 true)).1
    { id := "b", priority := .critical } (by decide)

section HookLemmas

theorem applyPatches_event (r : HookResult) (c : HookContext) :
    (applyPatches r c).event = c.event := by
  unfold applyPatches
  cases hmc : r.modified_context with
  | none =>
    cases hm : r.metadata with
    | none => rfl
    | some m => by_cases hme : m.isEmpty <;> simp [hme]
  | some d =>
    cases hm : r.metadata with
    | none => by_cases hde : d.isEmpty <;> simp [hde]
    | some m =>
      by_cases hde : d.isEmpty <;> by_cases hme : m.isEmpty <;> simp [hde, hme]

theorem runHooks_skip_at (p : Int) (hk : Hook) (post : List (Int × Hook))
    (ctx : HookContext) (hsr : hk.should_run ctx = false) :
    runHooks ((p, hk) :: post) ctx = runHooks post ctx := by
  simp only [runHooks, hsr]
  rw [if_neg (by simp)]

theorem runHooks_raises_at (p : Int) (hk : Hook) (post : List (Int × Hook))
    (ctx : HookContext) (hsr : hk.should_run ctx = true)
    (hex : hk.execute ctx = .raisesError) :
    runHooks ((p, hk) :: post) ctx
      = ((runHooks post ctx).1, hk.name :: (runHooks post ctx).2) := by
  simp only [runHooks, hsr, if_true, hex]

theorem runHooks_block_at (p : Int) (hk : Hook) (post : List (Int × Hook))
    (ctx : HookContext) (r : HookResult) (hsr : hk.should_run ctx = true)
    (hex : hk.execute ctx = .ok r) (hbl : r.action = "block") :
    runHooks ((p, hk) :: post) ctx
      = ({ action := "block",
           reason := some (orDefault r.reason "Blocked by hook"),
           modified_context := some (applyPatches r ctx).data }, [hk.name]) := by
  simp only [runHooks, hsr, if_true, hex]
  rw [if_pos (by simp [hbl])]

theorem runHooks_cont_at (p : Int) (hk : Hook) (post : List (Int × Hook))
    (ctx : HookContext) (r : HookResult) (hsr : hk.should_run ctx = true)
    (hex : hk.execute ctx = .ok r) (hbl : ¬(r.action = "block")) :
    runHooks ((p, hk) :: post) ctx
      = ((runHooks post (applyPatches r ctx)).1,
         hk.name :: (runHooks post (applyPatches r ctx)).2) := by
  simp only [runHooks, hsr, if_true, hex]
  rw [if_neg (by simp [hbl])]

theorem runHooks_append (L1 L2 : List (Int × Hook)) (ctx : HookContext)
    (d m : List (String × String)) (tr : List String)
    (hrun : runHooks L1 ctx
      = ({ action := "continue", reason := Option.none,
           modified_context := some d, metadata := some m }, tr)) :
    runHooks (L1 ++ L2) ctx
      = ((runHooks L2 { event := ctx.event, data := d, metadata := m }).1,
         tr ++ (runHooks L2 { event := ctx.event, data := d, metadata := m }).2) := by
  induction L1 generalizing ctx tr with
  | nil =>
    simp only [runHooks, Prod.mk.injEq, HookResult.mk.injEq] at hrun
    obtain ⟨⟨_, _, h3, h4⟩, h5⟩ := hrun
    injection h3 with h3
    injection h4 with h4
    subst h3
    subst h4
    subst h5
    simp
  | cons qh L1 ih =>
    obtain ⟨q, hk⟩ := qh
    rw [List.cons_append]
    by_cases hsr : hk.should_run ctx = true
    · cases hex : hk.execute ctx with
      | raisesError =>
        rw [runHooks_raises_at q hk _ ctx hsr hex] at hrun ⊢
        simp only [Prod.mk.injEq] at hrun
        obtain ⟨h1, h2⟩ := hrun
        rw [ih ctx (runHooks L1 ctx).2 (Prod.ext_iff.mpr ⟨h1, rfl⟩)]
        simp [← h2]
      | ok r =>
        by_cases hbl : r.action = "block"
        · rw [runHooks_block_at q hk _ ctx r hsr hex hbl] at hrun
          simp at hrun
        · rw [runHooks_cont_at q hk _ ctx r hsr hex hbl] at hrun ⊢
          simp only [Prod.mk.injEq] at hrun
          obtain ⟨h1, h2⟩ := hrun
          rw [ih (applyPatches r ctx) (runHooks L1 (applyPatches r ctx)).2
            (Prod.ext_iff.mpr ⟨h1, rfl⟩)]
          rw [applyPatches_event]
          simp [← h2]
    · have hsr2 : hk.should_run ctx = false := by simpa using hsr
      rw [runHooks_skip_at q hk _ ctx hsr2] at hrun ⊢
      exact ih ctx tr hrun

end HookLemmas

/-- C8 claim theorem: in the priority-sorted chain `trigger` runs for an
event (hooks before `hk` having all continued, with `d`/`m` the
accumulated data and metadata and `tr` the hooks executed so far), a hook
returning a block result immediately stops the chain: the caller receives
a block result carrying that hook's reason (with the source's fallback
text for a missing or empty reason) and no hook after it is executed.
A hook that raises is caught and treated as continue: every later hook
still runs on the unchanged context and the caller receives whatever the
rest of the chain produces. -/
theorem C8_hook_block_stops_chain_exception_continues
    (e : HookEngine) (event : String) (data metadata : List (String × String))
    (henb : e.enabled = true)
    (pre : List (Int × Hook)) (p : Int) (hk : Hook) (post : List (Int × Hook))
    (hsort : e.sortedHooks event = pre ++ (p, hk) :: post)
    (d m : List (String × String)) (tr : List String)
    (hpre : runHooks pre { event := event, data := data, metadata := metadata }
      = ({ action := "continue", reason := Option.none,
           modified_context := some d, metadata := some m }, tr)) :
    (∀ r, hk.should_run { event := event, data := d, metadata := m } = true →
      hk.execute { event := event, data := d, metadata := m } = .ok r →
      r.action = "block" →
      (e.trigger event data metadata).1.action = "block" ∧
      (e.trigger event data metadata).1.reason
        = some (orDefault r.reason "Blocked by hook") ∧
      (e.trigger event data metadata).2 = tr ++ [hk.name]) ∧
    (hk.should_run { event := event, data := d, metadata := m } = true →
      hk.execute { event := event, data := d, metadata := m } = .raisesError →
      e.trigger event data metadata
        = ((runHooks post { event := event, data := d, metadata := m }).1,
           tr ++ hk.name ::
             (runHooks post { event := event, data := d, metadata := m }).2)) := by
  have hne : (e.sortedHooks event).isEmpty = false := by
    rw [hsort]
    cases pre <;> rfl
  have htrig : e.trigger event data metadata
      = runHooks (pre ++ (p, hk) :: post)
          { event := event, data := data, metadata := metadata } := by
    unfold HookEngine.trigger
    rw [if_pos (by simp [henb]), ← hsort]
    rw [if_neg (by simp [hne])]
  constructor
  · intro r hsr hex hbl
    rw [htrig,
      runHooks_append pre ((p, hk) :: post) _ d m tr hpre,
      runHooks_block_at p hk post _ r hsr hex hbl]
    exact ⟨rfl, rfl, rfl⟩
  · intro hsr hex
    rw [htrig,
      runHooks_append pre ((p, hk) :: post) _ d m tr hpre,
      runHooks_raises_at p hk post _ hsr hex]

/-- C8 witness: the priority-10 blocking hook prevents the priority-50 hook
from running and its reason is reported; the priority-10 raising hook does
not prevent the priority-50 hook from running and the caller still gets a
continue result. -/
theorem C8_hook_block_stops_chain_exception_continues_witness :
    ((engBlock.trigger "E" [] []).1.action = "block" ∧
      (engBlock.trigger "E" [] []).1.reason = some "nope" ∧
      (engBlock.trigger "E" [] []).2 = ["b10"]) ∧
    ((engRaise.trigger "E" [] []).2 = ["r10", "c50"] ∧
      (engRaise.trigger "E" [] []).1.action = "continue") := by
  constructor
  · have h := (C8_hook_block_stops_chain_exception_continues engBlock "E" [] []
      rfl [] 10 hookBlock10 [(50, hookLate50)] rfl [] [] [] rfl).1
      { action := "block", reason := some "nope" } rfl rfl rfl
    refine ⟨h.1, ?_, h.2.2⟩
    rw [h.2.1]
    rfl
  · have h := (C8_hook_block_stops_chain_exception_continues engRaise "E" [] []
      rfl [] 10 hookRaise10 [(50, hookLate50)] rfl [] [] [] rfl).2 rfl rfl
    rw [h]
    exact ⟨rfl, rfl⟩

section InverseInvariantLemmas

theorem find?_id_unique (l : List Task)
    (hpw : l.Pairwise (fun s t => s.id ≠ t.id))
    (x : Task) (hx : x ∈ l) : l.find? (fun t => t.id == x.id) = some x := by
  induction l with
  | nil => cases hx
  | cons y ys ih =>
    rcases List.mem_cons.mp hx with h1 | h2
    · subst h1
      rw [List.find?_cons_of_pos _ (by simp)]
    · have hne : y.id ≠ x.id := (List.pairwise_cons.mp hpw).1 x h2
      rw [List.find?_cons_of_neg _ (by simp [hne])]
      exact ih (List.pairwise_cons.mp hpw).2 h2

theorem get_task_unique (tm : TaskManager)
    (hpw : tm.tasks.Pairwise (fun s t => s.id ≠ t.id))
    (x : Task) (hx : x ∈ tm.tasks) : tm.get_task x.id = some x :=
  find?_id_unique tm.tasks hpw x hx

theorem inverseInvariant_iff_get (tm : TaskManager)
    (hpw : tm.tasks.Pairwise (fun s t => s.id ≠ t.id)) :
    InverseInvariant tm ↔
      ∀ i j x y, tm.get_task i = some x → tm.get_task j = some y →
        (j ∈ x.depends_on ↔ i ∈ y.blocks) := by
  constructor
  · intro hinv i j x y hx hy
    have hx2 := List.mem_of_find?_eq_some hx
    have hy2 := List.mem_of_find?_eq_some hy
    have hxi : x.id = i := get_task_id tm i x hx
    have hyj : y.id = j := get_task_id tm j y hy
    have h := hinv x hx2 y hy2
    rw [hyj, hxi] at h
    exact h
  · intro h x hx y hy
    exact h x.id y.id x y (get_task_unique tm hpw x hx) (get_task_unique tm hpw y hy)

theorem pairwise_ids_modifyTask (tm : TaskManager) (id : String) (f : Task → Task)
    (hpw : tm.tasks.Pairwise (fun s t => s.id ≠ t.id))
    (hf : ∀ t, (f t).id = t.id) :
    (tm.modifyTask id f).tasks.Pairwise (fun s t => s.id ≠ t.id) := by
  unfold TaskManager.modifyTask
  rw [List.pairwise_map]
  refine hpw.imp ?_
  intro s t h
  by_cases hs : s.id = id <;> by_cases ht : t.id = id <;>
    simp [hs, ht, hf] <;> simp [hs, ht] at h ⊢ <;> assumption

theorem pairwise_ids_addDepApply (tm : TaskManager) (ta tb : Task) (a b : String)
    (hpw : tm.tasks.Pairwise (fun s t => s.id ≠ t.id)) :
    (addDepApply tm ta tb a b).tasks.Pairwise (fun s t => s.id ≠ t.id) := by
  unfold addDepApply addDepStep1 addDepStep2 addDepStep3
  repeat' split
  all_goals
    repeat refine pairwise_ids_modifyTask _ _ _ ?_ ?_
  all_goals first
    | exact hpw
    | intro t
      rfl

theorem pairwise_ids_removeDepApply (tm : TaskManager) (ta tb : Task) (a b : String)
    (hpw : tm.tasks.Pairwise (fun s t => s.id ≠ t.id)) :
    (removeDepApply tm ta tb a b).tasks.Pairwise (fun s t => s.id ≠ t.id) := by
  unfold removeDepApply rmStep1 rmStep2
  repeat' split
  all_goals
    repeat refine pairwise_ids_modifyTask _ _ _ ?_ ?_
  all_goals first
    | exact hpw
    | intro t
      rfl

end InverseInvariantLemmas

section InversePreservation

theorem mem_deps_depAppended (ta : Task) (b j : String) :
    j ∈ (depAppended ta b).depends_on ↔ (j ∈ ta.depends_on ∨ j = b) := by
  unfold depAppended appendDep
  by_cases hc : ta.depends_on.contains b
  · rw [if_pos hc]
    constructor
    · exact Or.inl
    · rintro (h | h)
      · exact h
      · subst h
        simpa using hc
  · rw [if_neg hc]
    simp

theorem mem_deps_depTaskFinal2 (ab : Bool) (ta tb : Task) (b j : String) :
    j ∈ (depTaskFinal ab ta tb b).depends_on ↔ (j ∈ ta.depends_on ∨ j = b) := by
  unfold depTaskFinal setBlocked
  by_cases hc : autoBlockCond ab ta tb
  · rw [if_pos hc]
    exact mem_deps_depAppended ta b j
  · rw [if_neg hc]
    exact mem_deps_depAppended ta b j

theorem depTaskFinal_blocks (ab : Bool) (ta tb : Task) (b : String) :
    (depTaskFinal ab ta tb b).blocks = ta.blocks := by
  unfold depTaskFinal setBlocked depAppended appendDep
  split <;> split <;> rfl

theorem mem_blocks_blocksAppended (tb : Task) (a j : String) :
    j ∈ (blocksAppended tb a).blocks ↔ (j ∈ tb.blocks ∨ j = a) := by
  unfold blocksAppended appendBlock
  by_cases hc : tb.blocks.contains a
  · rw [if_pos hc]
    constructor
    · exact Or.inl
    · rintro (h | h)
      · exact h
      · subst h
        simpa using hc
  · rw [if_neg hc]
    simp

theorem blocksAppended_deps (tb : Task) (a : String) :
    (blocksAppended tb a).depends_on = tb.depends_on := by
  unfold blocksAppended appendBlock
  split <;> rfl

theorem addDepApply_get_other (tm : TaskManager) (ta tb : Task) (a b i : String)
    (hia : i ≠ a) (hib : i ≠ b) :
    (addDepApply tm ta tb a b).get_task i = tm.get_task i := by
  unfold addDepApply
  rw [addDepStep3_get_ne _ _ ta tb a i hia, addDepStep2_get_ne _ tb a b i hib,
    addDepStep1_get_ne tm ta a b i hia]

theorem addDepApply_mem_spec (tm : TaskManager) (ta tb : Task) (a b : String)
    (hab : a ≠ b) (hga : tm.get_task a = some ta) (hgb : tm.get_task b = some tb) :
    ∀ i x, tm.get_task i = some x →
      ∃ x', (addDepApply tm ta tb a b).get_task i = some x' ∧
        (∀ j, j ∈ x'.depends_on ↔ (j ∈ x.depends_on ∨ (i = a ∧ j = b))) ∧
        (∀ j, j ∈ x'.blocks ↔ (j ∈ x.blocks ∨ (i = b ∧ j = a))) := by
  intro i x hx
  by_cases hia : i = a
  · subst hia
    rw [hga] at hx
    injection hx with hx
    subst hx
    refine ⟨depTaskFinal tm.auto_block_on_dependency ta tb b,
      addDepApply_get_a tm ta tb i b hab hga, ?_, ?_⟩
    · intro j
      rw [mem_deps_depTaskFinal2]
      simp
    · intro j
      rw [depTaskFinal_blocks]
      simp [hab]
  · by_cases hib : i = b
    · subst hib
      rw [hgb] at hx
      injection hx with hx
      subst hx
      refine ⟨blocksAppended tb a, addDepApply_get_b tm ta tb a i hab hgb, ?_, ?_⟩
      · intro j
        rw [blocksAppended_deps]
        simp [Ne.symm hab]
      · intro j
        rw [mem_blocks_blocksAppended]
        simp
    · refine ⟨x, ?_, ?_, ?_⟩
      · rw [addDepApply_get_other tm ta tb a b i hia hib]
        exact hx
      · intro j
        simp [hia]
      · intro j
        simp [hib]

theorem add_dependency_fst (tm : TaskManager) (a b : String) :
    (tm.add_dependency a b).1 = tm ∨
    ∃ ta tb, tm.get_task a = some ta ∧ tm.get_task b = some tb ∧ a ≠ b ∧
      (tm.add_dependency a b).1 = addDepApply tm ta tb a b := by
  cases hga : tm.get_task a with
  | none =>
    left
    simp [TaskManager.add_dependency, hga]
  | some ta =>
    cases hgb : tm.get_task b with
    | none =>
      left
      simp [TaskManager.add_dependency, hga, hgb]
    | some tb =>
      by_cases hab : a = b
      · left
        simp [TaskManager.add_dependency, hga, hgb, hab]
      · by_cases hcyc : tm.has_dependency_cycle a b = true
        · left
          simp [TaskManager.add_dependency, hga, hgb, hab, hcyc]
        · right
          refine ⟨ta, tb, rfl, rfl, hab, ?_⟩
          simp [TaskManager.add_dependency, hga, hgb, hab, hcyc]

theorem add_dependency_preserves_inverse (tm : TaskManager)
    (hpw : tm.tasks.Pairwise (fun s t => s.id ≠ t.id))
    (hinv : InverseInvariant tm) (a b : String) :
    InverseInvariant (tm.add_dependency a b).1 := by
  rcases add_dependency_fst tm a b with h | ⟨ta, tb, hga, hgb, hab, h⟩
  · rw [h]
    exact hinv
  · rw [h]
    rw [inverseInvariant_iff_get _ (pairwise_ids_addDepApply tm ta tb a b hpw)]
    intro i j x' y' hx' hy'
    cases hgi : tm.get_task i with
    | none =>
      exfalso
      by_cases hia : i = a
      · subst hia
        rw [hga] at hgi
        cases hgi
      · by_cases hib : i = b
        · subst hib
          rw [hgb] at hgi
          cases hgi
        · rw [addDepApply_get_other tm ta tb a b i hia hib, hgi] at hx'
          cases hx'
    | some x =>
      cases hgj : tm.get_task j with
      | none =>
        exfalso
        by_cases hja : j = a
        · subst hja
          rw [hga] at hgj
          cases hgj
        · by_cases hjb : j = b
          · subst hjb
            rw [hgb] at hgj
            cases hgj
          · rw [addDepApply_get_other tm ta tb a b j hja hjb, hgj] at hy'
            cases hy'
      | some y =>
        obtain ⟨x2, hx2, hxd, hxb⟩ := addDepApply_mem_spec tm ta tb a b hab hga hgb i x hgi
        obtain ⟨y2, hy2, hyd, hyb⟩ := addDepApply_mem_spec tm ta tb a b hab hga hgb j y hgj
        rw [hx'] at hx2
        injection hx2 with hx2
        subst hx2
        rw [hy'] at hy2
        injection hy2 with hy2
        subst hy2
        rw [hxd j, hyb i]
        have hbase := (inverseInvariant_iff_get tm hpw).mp hinv i j x y hgi hgj
        rw [hbase]
        constructor
        · rintro (h1 | ⟨h1, h2⟩)
          · exact Or.inl h1
          · exact Or.inr ⟨h2, h1⟩
        · rintro (h1 | ⟨h1, h2⟩)
          · exact Or.inl h1
          · exact Or.inr ⟨h2, h1⟩

end InversePreservation

section InversePreservationRemove

theorem rmStep1_get_self (tm : TaskManager) (ta : Task) (a b : String)
    (hga : tm.get_task a = some ta) :
    (rmStep1 tm ta a b).get_task a = some (depErased ta b) := by
  unfold rmStep1 depErased
  by_cases hc : ta.depends_on.contains b
  · rw [if_pos hc, if_pos hc,
      get_task_modifyTask_self tm a (eraseDep b) (fun _ => Eq.refl _), hga]
    rfl
  · rw [if_neg hc, if_neg hc, hga]

theorem rmStep1_get_ne (tm : TaskManager) (ta : Task) (a b i : String)
    (h : i ≠ a) : (rmStep1 tm ta a b).get_task i = tm.get_task i := by
  unfold rmStep1
  by_cases hc : ta.depends_on.contains b
  · rw [if_pos hc, get_task_modifyTask_ne tm a i (eraseDep b) (fun _ => Eq.refl _) h]
  · rw [if_neg hc]

theorem rmStep2_get_self (tm : TaskManager) (tb cur : Task) (a b : String)
    (hgb : tm.get_task b = some cur) (hblocks : cur.blocks = tb.blocks) :
    (rmStep2 tm tb a b).get_task b = some (blocksErased cur a) := by
  unfold rmStep2 blocksErased
  by_cases hc : tb.blocks.contains a
  · rw [if_pos hc,
      get_task_modifyTask_self tm b (eraseBlock a) (fun _ => Eq.refl _), hgb,
      if_pos (by rw [hblocks]; exact hc)]
    rfl
  · rw [if_neg hc, hgb, if_neg (by rw [hblocks]; exact hc)]

theorem rmStep2_get_ne (tm : TaskManager) (tb : Task) (a b i : String)
    (h : i ≠ b) : (rmStep2 tm tb a b).get_task i = tm.get_task i := by
  unfold rmStep2
  by_cases hc : tb.blocks.contains a
  · rw [if_pos hc, get_task_modifyTask_ne tm b i (eraseBlock a) (fun _ => Eq.refl _) h]
  · rw [if_neg hc]

theorem mem_deps_depErased (ta : Task) (b j : String)
    (hnd : ta.depends_on.Nodup) :
    j ∈ (depErased ta b).depends_on ↔ (j ≠ b ∧ j ∈ ta.depends_on) := by
  unfold depErased eraseDep
  by_cases hc : ta.depends_on.contains b
  · rw [if_pos hc]
    exact hnd.mem_erase_iff
  · rw [if_neg hc]
    constructor
    · intro h
      refine ⟨?_, h⟩
      intro he
      subst he
      exact hc (by simpa using h)
    · exact And.right

theorem depErased_blocks (ta : Task) (b : String) :
    (depErased ta b).blocks = ta.blocks := by
  unfold depErased eraseDep
  split <;> rfl

theorem mem_blocks_blocksErased (tb : Task) (a j : String)
    (hnd : tb.blocks.Nodup) :
    j ∈ (blocksErased tb a).blocks ↔ (j ≠ a ∧ j ∈ tb.blocks) := by
  unfold blocksErased eraseBlock
  by_cases hc : tb.blocks.contains a
  · rw [if_pos hc]
    exact hnd.mem_erase_iff
  · rw [if_neg hc]
    constructor
    · intro h
      refine ⟨?_, h⟩
      intro he
      subst he
      exact hc (by simpa using h)
    · exact And.right

theorem blocksErased_deps (tb : Task) (a : String) :
    (blocksErased tb a).depends_on = tb.depends_on := by
  unfold blocksErased eraseBlock
  split <;> rfl

theorem removeDepApply_mem_spec (tm : TaskManager) (ta tb : Task) (a b : String)
    (hga : tm.get_task a = some ta) (hgb : tm.get_task b = some tb)
    (hndd : ta.depends_on.Nodup) (hndb : tb.blocks.Nodup) :
    ∀ i x, tm.get_task i = some x →
      ∃ x', (removeDepApply tm ta tb a b).get_task i = some x' ∧
        (∀ j, j ∈ x'.depends_on ↔ ((i = a → j ≠ b) ∧ j ∈ x.depends_on)) ∧
        (∀ j, j ∈ x'.blocks ↔ ((i = b → j ≠ a) ∧ j ∈ x.blocks)) := by
  intro i x hx
  unfold removeDepApply
  by_cases hib : i = b
  · subst hib
    rw [hgb] at hx
    injection hx with hx
    subst hx
    by_cases hia : i = a
    · subst hia
      have hta : ta = tb := by
        rw [hga] at hgb
        injection hgb
      subst hta
      have h1 : (rmStep1 tm ta i i).get_task i = some (depErased ta i) :=
        rmStep1_get_self tm ta i i hga
      refine ⟨blocksErased (depErased ta i) i,
        rmStep2_get_self _ ta (depErased ta i) i i h1 (depErased_blocks ta i), ?_, ?_⟩
      · intro j
        rw [blocksErased_deps, mem_deps_depErased ta i j hndd]
        simp
      · intro j
        rw [mem_blocks_blocksErased (depErased ta i) i j
            (by rw [depErased_blocks]; exact hndb),
          depErased_blocks]
        simp
    · have h1 : (rmStep1 tm ta a i).get_task i = tm.get_task i :=
        rmStep1_get_ne tm ta a i i (fun he => hia he)
      refine ⟨blocksErased tb a,
        rmStep2_get_self _ tb tb a i (by rw [h1]; exact hgb) (Eq.refl _), ?_, ?_⟩
      · intro j
        rw [blocksErased_deps]
        simp [hia]
      · intro j
        rw [mem_blocks_blocksErased tb a j hndb]
        simp
  · by_cases hia : i = a
    · subst hia
      rw [hga] at hx
      injection hx with hx
      subst hx
      refine ⟨depErased ta b, ?_, ?_, ?_⟩
      · rw [rmStep2_get_ne _ tb i b i hib, rmStep1_get_self tm ta i b hga]
      · intro j
        rw [mem_deps_depErased ta b j hndd]
        simp
      · intro j
        rw [depErased_blocks]
        simp [hib]
    · refine ⟨x, ?_, ?_, ?_⟩
      · rw [rmStep2_get_ne _ tb a b i hib, rmStep1_get_ne tm ta a b i hia]
        exact hx
      · intro j
        simp [hia]
      · intro j
        simp [hib]

theorem removeDepApply_get_other (tm : TaskManager) (ta tb : Task) (a b i : String)
    (hia : i ≠ a) (hib : i ≠ b) :
    (removeDepApply tm ta tb a b).get_task i = tm.get_task i := by
  unfold removeDepApply
  rw [rmStep2_get_ne _ tb a b i hib, rmStep1_get_ne tm ta a b i hia]

theorem remove_dependency_fst (tm : TaskManager) (a b : String) :
    (tm.remove_dependency a b).1 = tm ∨
    ∃ ta tb, tm.get_task a = some ta ∧ tm.get_task b = some tb ∧
      (tm.remove_dependency a b).1 = removeDepApply tm ta tb a b := by
  cases hga : tm.get_task a with
  | none =>
    left
    simp [TaskManager.remove_dependency, hga]
  | some ta =>
    cases hgb : tm.get_task b with
    | none =>
      left
      simp [TaskManager.remove_dependency, hga, hgb]
    | some tb =>
      right
      refine ⟨ta, tb, rfl, rfl, ?_⟩
      simp [TaskManager.remove_dependency, hga, hgb]

theorem remove_dependency_preserves_inverse (tm : TaskManager) (hwf : tm.WF)
    (hinv : InverseInvariant tm) (a b : String) :
    InverseInvariant (tm.remove_dependency a b).1 := by
  obtain ⟨hpw, hnd⟩ := hwf
  rcases remove_dependency_fst tm a b with h | ⟨ta, tb, hga, hgb, h⟩
  · rw [h]
    exact hinv
  · rw [h]
    have hndd : ta.depends_on.Nodup :=
      (hnd ta (List.mem_of_find?_eq_some hga)).1
    have hndb : tb.blocks.Nodup :=
      (hnd tb (List.mem_of_find?_eq_some hgb)).2
    rw [inverseInvariant_iff_get _ (pairwise_ids_removeDepApply tm ta tb a b hpw)]
    intro i j x' y' hx' hy'
    cases hgi : tm.get_task i with
    | none =>
      exfalso
      by_cases hia : i = a
      · subst hia
        rw [hga] at hgi
        cases hgi
      · by_cases hib : i = b
        · subst hib
          rw [hgb] at hgi
          cases hgi
        · rw [removeDepApply_get_other tm ta tb a b i hia hib, hgi] at hx'
          cases hx'
    | some x =>
      cases hgj : tm.get_task j with
      | none =>
        exfalso
        by_cases hja : j = a
        · subst hja
          rw [hga] at hgj
          cases hgj
        · by_cases hjb : j = b
          · subst hjb
            rw [hgb] at hgj
            cases hgj
          · rw [removeDepApply_get_other tm ta tb a b j hja hjb, hgj] at hy'
            cases hy'
      | some y =>
        obtain ⟨x2, hx2, hxd, hxb⟩ :=
          removeDepApply_mem_spec tm ta tb a b hga hgb hndd hndb i x hgi
        obtain ⟨y2, hy2, hyd, hyb⟩ :=
          removeDepApply_mem_spec tm ta tb a b hga hgb hndd hndb j y hgj
        rw [hx'] at hx2
        injection hx2 with hx2
        subst hx2
        rw [hy'] at hy2
        injection hy2 with hy2
        subst hy2
        rw [hxd j, hyb i]
        have hbase := (inverseInvariant_iff_get tm hpw).mp hinv i j x y hgi hgj
        rw [hbase]
        constructor
        · rintro ⟨h1, h2⟩
          exact ⟨fun hjb hia => (h1 hia) hjb, h2⟩
        · rintro ⟨h1, h2⟩
          exact ⟨fun hia hjb => (h1 hjb) hia, h2⟩

end InversePreservationRemove

section InverseClaim

theorem dictInsert_fresh (tasks : List Task) (t : Task)
    (h : tasks.any (fun x => x.id == t.id) = false) :
    dictInsert tasks t = tasks ++ [t] := by
  unfold dictInsert
  rw [h]
  rfl

theorem create_task_preserves_inverse (tm : TaskManager) (t : Task)
    (hinv : InverseInvariant tm)
    (hdeps : t.depends_on = []) (hblocks : t.blocks = [])
    (hfresh : ∀ x ∈ tm.tasks, x.id ≠ t.id ∧ t.id ∉ x.depends_on ∧ t.id ∉ x.blocks) :
    InverseInvariant (tm.create_task t).1 := by
  unfold TaskManager.create_task
  by_cases hmax : tm.max_pending_tasks ≤
      (tm.tasks.filter (fun x => x.status == .pending)).length
  · rw [if_pos hmax]
    exact hinv
  · rw [if_neg hmax]
    have hany : tm.tasks.any (fun x => x.id == t.id) = false := by
      rw [List.any_eq_false]
      intro x hx
      simpa using (hfresh x hx).1
    intro a ha b hb
    rw [dictInsert_fresh tm.tasks t hany] at ha hb
    rcases List.mem_append.mp ha with ha1 | ha2
    · rcases List.mem_append.mp hb with hb1 | hb2
      · exact hinv a ha1 b hb1
      · have hbt : b = t := by simpa using hb2
        rw [hbt, hblocks]
        constructor
        · intro h
          exact absurd h (hfresh a ha1).2.1
        · intro h
          cases h
    · have hat : a = t := by simpa using ha2
      rw [hat, hdeps]
      rcases List.mem_append.mp hb with hb1 | hb2
      · constructor
        · intro h
          cases h
        · intro h
          exact absurd h (hfresh b hb1).2.2
      · have hbt : b = t := by simpa using hb2
        rw [hbt, hblocks]

/-- C6 counterexample: `create_task` does no inverse maintenance, so
creating a task that already lists an existing task in its `depends_on`
leaves the existing task's `blocks` without the inverse entry, breaking the
exact-inverse relation that held before the call. -/
theorem C6_counterexample :
    InverseInvariant { tasks := [{ id := "b" }] } ∧
    ¬ InverseInvariant
      (TaskManager.create_task { tasks := [{ id := "b" }] }
        { id := "a", depends_on := ["b"] }).1 := by
  constructor
  · decide
  · decide

/-- C6 (amended): on a well-formed state satisfying the exact-inverse
relation between `depends_on` and `blocks`, `add_dependency` and
`remove_dependency` preserve the relation for every pair of arguments
(whether they succeed or fail), and `create_task` preserves it provided
the created task carries no dependency edges and its id is fresh and not
referenced by any existing edge; the original claim's unconditional
preservation under task creation is false (see the counterexample). -/
theorem C6_inverse_invariant_preserved (tm : TaskManager) (hwf : tm.WF)
    (hinv : InverseInvariant tm) :
    (∀ a b, InverseInvariant (tm.add_dependency a b).1) ∧
    (∀ a b, InverseInvariant (tm.remove_dependency a b).1) ∧
    (∀ t, t.depends_on = [] → t.blocks = [] →
      (∀ x ∈ tm.tasks, x.id ≠ t.id ∧ t.id ∉ x.depends_on ∧ t.id ∉ x.blocks) →
      InverseInvariant (tm.create_task t).1) :=
  ⟨fun a b => add_dependency_preserves_inverse tm hwf.1 hinv a b,
    fun a b => remove_dependency_preserves_inverse tm hwf hinv a b,
    fun t hd hb hf => create_task_preserves_inverse tm t hinv hd hb hf⟩

theorem C6_inverse_invariant_preserved_witness :
    TaskManager.WF { tasks := [{ id := "b" }] } ∧
    InverseInvariant { tasks := [{ id := "b" }] } ∧
    InverseInvariant
      (TaskManager.add_dependency { tasks := [{ id := "b" }] } "b" "b").1 :=
  ⟨by decide, by decide,
    (C6_inverse_invariant_preserved { tasks := [{ id := "b" }] }
      (by decide) (by decide)).1 "b" "b"⟩

end InverseClaim

section KahnMap

theorem kahnTaskMap_go (tm : TaskManager) (ids : List String)
    (m : List (String × Task))
    (hfresh : ∀ p ∈ m, p.1 ∉ ids) (hnd : ids.Nodup) :
    ids.foldl
      (fun m tid =>
        match tm.get_task tid with
        | some t => assocSet m tid t
        | Option.none => m) m =
    m ++ ids.filterMap (fun i => (tm.get_task i).map (fun t => (i, t))) := by
  induction ids generalizing m with
  | nil => simp
  | cons i rest ih =>
    rw [List.foldl_cons]
    cases hg : tm.get_task i with
    | none =>
      dsimp only
      rw [ih m (fun p hp => fun hmem => hfresh p hp (List.mem_cons_of_mem i hmem))
        (List.nodup_cons.mp hnd).2,
        List.filterMap_cons_none (by rw [hg]; rfl)]
    | some t =>
      dsimp only
      have hany : m.any (fun p => p.1 == i) = false := by
        rw [List.any_eq_false]
        intro p hp
        simp only [beq_iff_eq]
        intro he
        exact hfresh p hp (he ▸ List.mem_cons_self i rest)
      have hset : assocSet m i t = m ++ [(i, t)] := by
        unfold assocSet
        rw [hany]
        rfl
      rw [hset, ih (m ++ [(i, t)]) ?_ (List.nodup_cons.mp hnd).2]
      · rw [List.filterMap_cons_some (by rw [hg]; rfl)]
        simp
      · intro p hp
        rcases List.mem_append.mp hp with h1 | h2
        · intro hmem
          exact hfresh p h1 (List.mem_cons_of_mem i hmem)
        · have hpi : p = (i, t) := by simpa using h2
          subst hpi
          exact (List.nodup_cons.mp hnd).1

theorem kahnTaskMap_eq (tm : TaskManager) (ids : List String) (hnd : ids.Nodup) :
    tm.kahnTaskMap ids =
      ids.filterMap (fun i => (tm.get_task i).map (fun t => (i, t))) := by
  unfold TaskManager.kahnTaskMap
  rw [kahnTaskMap_go tm ids [] (by intro p hp; cases hp) hnd]
  rfl

theorem lookupTask_filterMap (tm : TaskManager) (ids : List String)
    (hnd : ids.Nodup) (j : String) :
    lookupTask (ids.filterMap (fun i => (tm.get_task i).map (fun t => (i, t)))) j =
      if j ∈ ids then tm.get_task j else Option.none := by
  induction ids with
  | nil => simp [lookupTask]
  | cons i rest ih =>
    cases hg : tm.get_task i with
    | none =>
      rw [List.filterMap_cons_none (by rw [hg]; rfl),
        ih (List.nodup_cons.mp hnd).2]
      by_cases hj : j = i
      · subst hj
        rw [if_neg (fun h => (List.nodup_cons.mp hnd).1 h),
          if_pos (List.mem_cons_self j rest), hg]
      · by_cases hjr : j ∈ rest
        · rw [if_pos hjr, if_pos (List.mem_cons_of_mem i hjr)]
        · rw [if_neg hjr, if_neg (fun h => hjr (List.mem_of_ne_of_mem hj h))]
    | some t =>
      rw [List.filterMap_cons_some (by rw [hg]; rfl)]
      by_cases hj : j = i
      · subst hj
        unfold lookupTask
        rw [List.find?_cons_of_pos _ (by simp), if_pos (List.mem_cons_self j rest)]
        simp [hg]
      · unfold lookupTask
        rw [List.find?_cons_of_neg _ (by simp [Ne.symm hj])]
        have h2 := ih (List.nodup_cons.mp hnd).2
        unfold lookupTask at h2
        rw [h2]
        by_cases hjr : j ∈ rest
        · rw [if_pos hjr, if_pos (List.mem_cons_of_mem i hjr)]
        · rw [if_neg hjr, if_neg (fun h => hjr (List.mem_of_ne_of_mem hj h))]

theorem lookupTask_kahnTaskMap (tm : TaskManager) (ids : List String)
    (hnd : ids.Nodup) (j : String) :
    lookupTask (tm.kahnTaskMap ids) j =
      if j ∈ ids then tm.get_task j else Option.none := by
  rw [kahnTaskMap_eq tm ids hnd]
  exact lookupTask_filterMap tm ids hnd j

theorem kahnTaskMap_length (tm : TaskManager) (ids : List String)
    (hnd : ids.Nodup)
    (hex : ∀ i ∈ ids, (tm.get_task i).isSome = true) :
    (tm.kahnTaskMap ids).length = ids.length := by
  rw [kahnTaskMap_eq tm ids hnd]
  clear hnd
  induction ids with
  | nil => rfl
  | cons i rest ih =>
    cases hg : tm.get_task i with
    | none =>
      exfalso
      have h2 := hex i (List.mem_cons_self i rest)
      rw [hg] at h2
      cases h2
    | some t =>
      rw [List.filterMap_cons_some (by rw [hg]; rfl), List.length_cons,
        ih (fun i2 hi2 => hex i2 (List.mem_cons_of_mem i hi2)), List.length_cons]

end KahnMap

section KahnFold

theorem kahnDecStep_skip (M : List (String × Task))
    (p : (String → Int) × List String) (b : String)
    (h : (lookupTask M b).isSome = false) : kahnDecStep M p b = p := by
  unfold kahnDecStep
  rw [h]
  rfl

theorem kahnDecStep_hit (M : List (String × Task))
    (p : (String → Int) × List String) (b : String)
    (h : (lookupTask M b).isSome = true) (hv : p.1 b - 1 = 0) :
    kahnDecStep M p b =
      (fun id => if id == b then p.1 b - 1 else p.1 id, p.2 ++ [b]) := by
  unfold kahnDecStep
  rw [h]
  simp [hv]

theorem kahnDecStep_miss (M : List (String × Task))
    (p : (String → Int) × List String) (b : String)
    (h : (lookupTask M b).isSome = true) (hv : ¬ p.1 b - 1 = 0) :
    kahnDecStep M p b =
      (fun id => if id == b then p.1 b - 1 else p.1 id, p.2) := by
  unfold kahnDecStep
  rw [h]
  simp [hv]

theorem kahnFold_spec (M : List (String × Task)) (ids : List String)
    (hMem : ∀ j : String, (lookupTask M j).isSome = true ↔ j ∈ ids)
    (bs : List String) (hndb : bs.Nodup) (deg : String → Int)
    (queue : List String) :
    (∀ j, (bs.foldl (kahnDecStep M) (deg, queue)).1 j =
        if j ∈ bs ∧ j ∈ ids then deg j - 1 else deg j) ∧
    (bs.foldl (kahnDecStep M) (deg, queue)).2 =
        queue ++ bs.filter (fun j => decide (j ∈ ids) && (deg j == 1)) := by
  induction bs generalizing deg queue with
  | nil =>
    constructor
    · intro j
      rw [List.foldl_nil, if_neg (fun h => (List.not_mem_nil j) h.1)]
    · simp
  | cons b bs ih =>
    have hbs : b ∉ bs := (List.nodup_cons.mp hndb).1
    have hnd2 : bs.Nodup := (List.nodup_cons.mp hndb).2
    rw [List.foldl_cons]
    by_cases hb : b ∈ ids
    · have hsome : (lookupTask M b).isSome = true := (hMem b).mpr hb
      by_cases hv : deg b - 1 = 0
      · rw [kahnDecStep_hit M (deg, queue) b hsome hv]
        obtain ⟨ih1, ih2⟩ := ih hnd2
          (fun id => if id == b then deg b - 1 else deg id) (queue ++ [b])
        constructor
        · intro j
          rw [ih1 j]
          by_cases hjb : j = b
          · subst hjb
            simp [hbs, hb]
          · simp [hjb, List.mem_cons]
        · rw [ih2]
          have hfe : bs.filter (fun j => decide (j ∈ ids) &&
                ((if (j == b) = true then deg b - 1 else deg j) == 1)) =
              bs.filter (fun j => decide (j ∈ ids) && (deg j == 1)) :=
            List.filter_congr (fun j hj => by
              have hne : (j == b) = false :=
                beq_eq_false_iff_ne.mpr (fun he => hbs (he ▸ hj))
              rw [hne]
              simp)
          rw [hfe]
          rw [List.filter_cons_of_pos (by
            have h1 : deg b = 1 := by omega
            simp [hb, h1])]
          simp
      · rw [kahnDecStep_miss M (deg, queue) b hsome hv]
        obtain ⟨ih1, ih2⟩ := ih hnd2
          (fun id => if id == b then deg b - 1 else deg id) queue
        constructor
        · intro j
          rw [ih1 j]
          by_cases hjb : j = b
          · subst hjb
            simp [hbs, hb]
          · simp [hjb, List.mem_cons]
        · rw [ih2]
          have hfe : bs.filter (fun j => decide (j ∈ ids) &&
                ((if (j == b) = true then deg b - 1 else deg j) == 1)) =
              bs.filter (fun j => decide (j ∈ ids) && (deg j == 1)) :=
            List.filter_congr (fun j hj => by
              have hne : (j == b) = false :=
                beq_eq_false_iff_ne.mpr (fun he => hbs (he ▸ hj))
              rw [hne]
              simp)
          rw [hfe]
          rw [List.filter_cons_of_neg (by
            have h1 : ¬ deg b = 1 := by omega
            simp [h1])]
    · have hnone : (lookupTask M b).isSome = false := by
        cases hng : (lookupTask M b).isSome
        · rfl
        · exact absurd ((hMem b).mp hng) hb
      rw [kahnDecStep_skip M (deg, queue) b hnone]
      obtain ⟨ih1, ih2⟩ := ih hnd2 deg queue
      constructor
      · intro j
        rw [ih1 j]
        by_cases hjb : j = b
        · subst hjb
          rw [if_neg (fun hc => hbs hc.1), if_neg (fun hc => hb hc.2)]
        · by_cases hj2 : j ∈ bs ∧ j ∈ ids
          · rw [if_pos hj2, if_pos ⟨List.mem_cons_of_mem b hj2.1, hj2.2⟩]
          · rw [if_neg hj2, if_neg (fun hc =>
              hj2 ⟨(List.mem_cons.mp hc.1).resolve_left hjb, hc.2⟩)]
      · rw [ih2]
        rw [List.filter_cons_of_neg (by simp [hb])]

end KahnFold

section KahnLoopSpec

theorem unproc_count_dec (l P : List String) (k : String)
    (hnd : l.Nodup) (hk : k ∈ l) (hkP : k ∉ P) :
    (l.filter (fun d => ! ((P ++ [k]).contains d))).length + 1 =
    (l.filter (fun d => ! (P.contains d))).length := by
  induction l with
  | nil => cases hk
  | cons i rest ih =>
    have hndr : rest.Nodup := (List.nodup_cons.mp hnd).2
    rw [List.filter_cons, List.filter_cons]
    by_cases hik : i = k
    · subst hik
      have hir : i ∉ rest := (List.nodup_cons.mp hnd).1
      rw [if_neg (by simp), if_pos (by simp [hkP])]
      have hfe : rest.filter (fun d => ! ((P ++ [i]).contains d)) =
          rest.filter (fun d => ! (P.contains d)) :=
        List.filter_congr (fun d hd => by
          have hdi : d ≠ i := fun he => hir (he ▸ hd)
          simp [hdi])
      rw [hfe, List.length_cons]
    · have hkr : k ∈ rest := (List.mem_cons.mp hk).resolve_left
        (fun h => hik h.symm)
      have h2 := ih hndr hkr
      by_cases hip : i ∈ P
      · rw [if_neg (by simp [hip]), if_neg (by simp [hip])]
        exact h2
      · rw [if_pos (by simp [hip, hik]), if_pos (by simp [hip])]
        simp only [List.length_cons]
        omega

theorem take_append_left_of_le (l1 l2 : List Task) (n : Nat)
    (h : n ≤ l1.length) : (l1 ++ l2).take n = l1.take n := by
  rw [List.take_append_eq_append_take, Nat.sub_eq_zero_of_le h]
  simp

theorem indexOf_lt_of_mem_take (L : List String) (n : Nat) (u : String)
    (h : u ∈ L.take n) : L.indexOf u < n := by
  induction L generalizing n with
  | nil => simp at h
  | cons a L ih =>
    cases n with
    | zero => simp at h
    | succ n =>
      rw [List.take_succ_cons] at h
      by_cases hu : u = a
      · subst hu
        rw [List.indexOf_cons_self]
        exact Nat.succ_pos n
      · rcases List.mem_cons.mp h with h1 | h2
        · exact absurd h1 hu
        · rw [List.indexOf_cons_ne _ (fun he => hu he.symm)]
          exact Nat.succ_lt_succ (ih n h2)

theorem kahnLoop_spec (tm : TaskManager) (ids : List String)
    (hwf : tm.WF) (hinv : InverseInvariant tm) (hnd : ids.Nodup)
    (hex : ∀ i ∈ ids, (tm.get_task i).isSome = true)
    (fuel : Nat) :
    ∀ (deg : String → Int) (queue : List String) (result : List Task),
      KahnInv tm ids deg queue result →
      (ids.filter (fun d => ! ((result.map Task.id).contains d))).length < fuel →
      ∃ result2 deg2,
        kahnLoop (tm.kahnTaskMap ids) fuel deg queue result = (result2, []) ∧
        KahnInv tm ids deg2 [] result2 := by
  induction fuel with
  | zero =>
    intro deg queue result inv hfuel
    exact absurd hfuel (Nat.not_lt_zero _)
  | succ fuel ih =>
    intro deg queue result inv hfuel
    cases queue with
    | nil =>
      refine ⟨result, deg, ?_, inv⟩
      rw [kahnLoop]
    | cons k qrest =>
      have hkids : k ∈ ids := inv.qSub k (List.mem_cons_self k qrest)
      obtain ⟨t, ht⟩ : ∃ t, tm.get_task k = some t :=
        Option.isSome_iff_exists.mp (hex k hkids)
      have htid : t.id = k := get_task_id tm k t ht
      have hlook : lookupTask (tm.kahnTaskMap ids) k = some t := by
        rw [lookupTask_kahnTaskMap tm ids hnd k, if_pos hkids, ht]
      have hMem : ∀ j, (lookupTask (tm.kahnTaskMap ids) j).isSome = true ↔
          j ∈ ids := by
        intro j
        rw [lookupTask_kahnTaskMap tm ids hnd j]
        constructor
        · intro h
          by_contra hj
          rw [if_neg hj] at h
          cases h
        · intro hj
          rw [if_pos hj]
          exact hex j hj
      have htmem : t ∈ tm.tasks := List.mem_of_find?_eq_some ht
      have hndb : t.blocks.Nodup := (hwf.2 t htmem).2
      obtain ⟨hd, hqout⟩ :=
        kahnFold_spec (tm.kahnTaskMap ids) ids hMem t.blocks hndb deg qrest
      have hstep : kahnLoop (tm.kahnTaskMap ids) (fuel + 1) deg (k :: qrest)
          result =
          kahnLoop (tm.kahnTaskMap ids) fuel
            (t.blocks.foldl (kahnDecStep (tm.kahnTaskMap ids)) (deg, qrest)).1
            (t.blocks.foldl (kahnDecStep (tm.kahnTaskMap ids)) (deg, qrest)).2
            (result ++ [t]) := by
        simp only [kahnLoop, hlook]
      have hkq : k ∉ result.map Task.id := inv.qDisj k (List.mem_cons_self k qrest)
      have hdegk : deg k = 0 :=
        (inv.qChar k hkids hkq).mp (List.mem_cons_self k qrest)
      have hf0 : t.depends_on.filter
          (fun d => ! ((result.map Task.id).contains d)) = [] := by
        have h2 := inv.degEq k hkids t ht
        rw [hdegk] at h2
        have h3 : (t.depends_on.filter
            (fun d => ! ((result.map Task.id).contains d))).length = 0 := by
          exact_mod_cast h2.symm
        exact List.length_eq_zero.mp h3
      have hdeps0 : ∀ d ∈ t.depends_on, d ∈ result.map Task.id := by
        intro d hdm
        by_contra hdp
        have h4 : d ∈ t.depends_on.filter
            (fun d => ! ((result.map Task.id).contains d)) :=
          List.mem_filter.mpr ⟨hdm, by simp [hdp]⟩
        rw [hf0] at h4
        cases h4
      have hP2 : (result ++ [t]).map Task.id = result.map Task.id ++ [k] := by
        simp [htid]
      have hedge : ∀ k2 t2, tm.get_task k2 = some t2 →
          (k ∈ t2.depends_on ↔ k2 ∈ t.blocks) :=
        fun k2 t2 ht2 =>
          (inverseInvariant_iff_get tm hwf.1).mp hinv k2 k t2 t ht2 ht
      have hprocdeg0 : ∀ a ∈ result.map Task.id, deg a = 0 := by
        intro a ha
        obtain ⟨r, hr, hra⟩ := List.mem_map.mp ha
        have hga : tm.get_task a = some r := hra ▸ inv.resOk r hr
        have haids : a ∈ ids := hra ▸ inv.resIds r hr
        have h2 := inv.degEq a haids r hga
        have hfe : r.depends_on.filter
            (fun d => ! ((result.map Task.id).contains d)) = [] := by
          rw [List.filter_eq_nil_iff]
          intro d hdm
          have hdp : d ∈ result.map Task.id := inv.depsDone r hr d hdm
          simp [hdp]
        rw [hfe] at h2
        simpa using h2
      have hinvNew : KahnInv tm ids
          (t.blocks.foldl (kahnDecStep (tm.kahnTaskMap ids)) (deg, qrest)).1
          (t.blocks.foldl (kahnDecStep (tm.kahnTaskMap ids)) (deg, qrest)).2
          (result ++ [t]) := by
        refine ⟨?_, ?_, ?_, ?_, ?_, ?_, ?_, ?_, ?_, ?_⟩
        · intro r hr
          rcases List.mem_append.mp hr with h1 | h2
          · exact inv.resOk r h1
          · have hrt : r = t := by simpa using h2
            subst hrt
            rw [htid]
            exact ht
        · intro r hr
          rcases List.mem_append.mp hr with h1 | h2
          · exact inv.resIds r h1
          · have hrt : r = t := by simpa using h2
            subst hrt
            rw [htid]
            exact hkids
        · rw [hP2, List.nodup_append]
          refine ⟨inv.resNd, List.nodup_singleton k, ?_⟩
          intro a ha hb
          have hak : a = k := by simpa using hb
          exact hkq (hak ▸ ha)
        · intro k2 hk2
          rw [hqout] at hk2
          rcases List.mem_append.mp hk2 with h1 | h2
          · exact inv.qSub k2 (List.mem_cons_of_mem k h1)
          · have h3 := (List.mem_filter.mp h2).2
            simp only [Bool.and_eq_true, decide_eq_true_eq] at h3
            exact h3.1
        · rw [hqout, List.nodup_append]
          refine ⟨(List.nodup_cons.mp inv.qNd).2, List.Nodup.filter _ hndb, ?_⟩
          intro a ha hb
          have h3 := (List.mem_filter.mp hb).2
          simp only [Bool.and_eq_true, decide_eq_true_eq, beq_iff_eq] at h3
          have haq : a ∈ k :: qrest := List.mem_cons_of_mem k ha
          have h5 : deg a = 0 :=
            (inv.qChar a (inv.qSub a haq) (inv.qDisj a haq)).mp haq
          rw [h5] at h3
          cases h3.2
        · intro a ha
          rw [hqout] at ha
          rw [hP2]
          intro hmem
          rcases List.mem_append.mp hmem with hm1 | hm2
          · rcases List.mem_append.mp ha with h1 | h2
            · exact inv.qDisj a (List.mem_cons_of_mem k h1) hm1
            · have h3 := (List.mem_filter.mp h2).2
              simp only [Bool.and_eq_true, decide_eq_true_eq, beq_iff_eq] at h3
              have h0 := hprocdeg0 a hm1
              rw [h0] at h3
              cases h3.2
          · have hak : a = k := by simpa using hm2
            rcases List.mem_append.mp ha with h1 | h2
            · exact (List.nodup_cons.mp inv.qNd).1 (hak ▸ h1)
            · have h3 := (List.mem_filter.mp h2).2
              simp only [Bool.and_eq_true, decide_eq_true_eq, beq_iff_eq] at h3
              rw [hak, hdegk] at h3
              cases h3.2
        · intro k2 hk2 t2 ht2
          rw [hd k2]
          have hbase := inv.degEq k2 hk2 t2 ht2
          have hndd2 : t2.depends_on.Nodup :=
            (hwf.2 t2 (List.mem_of_find?_eq_some ht2)).1
          by_cases hkb : k2 ∈ t.blocks
          · rw [if_pos ⟨hkb, hk2⟩, hbase, hP2]
            have hke : k ∈ t2.depends_on := (hedge k2 t2 ht2).mpr hkb
            have harith := unproc_count_dec t2.depends_on
              (result.map Task.id) k hndd2 hke hkq
            omega
          · rw [if_neg (fun hc => hkb hc.1), hbase, hP2]
            have hknd : k ∉ t2.depends_on :=
              fun hc => hkb ((hedge k2 t2 ht2).mp hc)
            have hfe : t2.depends_on.filter
                (fun d => ! ((result.map Task.id ++ [k]).contains d)) =
                t2.depends_on.filter
                  (fun d => ! ((result.map Task.id).contains d)) :=
              List.filter_congr (fun d hd2 => by
                have hdk : d ≠ k := fun he => hknd (he ▸ hd2)
                simp [hdk])
            rw [hfe]
        · intro k2 hk2 hk2p
          rw [hP2] at hk2p
          have hk2pold : k2 ∉ result.map Task.id :=
            fun hc => hk2p (List.mem_append.mpr (Or.inl hc))
          have hk2k : k2 ≠ k :=
            fun he => hk2p (List.mem_append.mpr (Or.inr (by simp [he])))
          rw [hqout, hd k2]
          by_cases hkb : k2 ∈ t.blocks
          · rw [if_pos ⟨hkb, hk2⟩]
            have hk2q : k2 ∉ qrest := by
              intro hc
              have h0 : deg k2 = 0 :=
                (inv.qChar k2 hk2 hk2pold).mp (List.mem_cons_of_mem k hc)
              obtain ⟨t2, ht2⟩ : ∃ t2, tm.get_task k2 = some t2 :=
                Option.isSome_iff_exists.mp (hex k2 hk2)
              have hke : k ∈ t2.depends_on := (hedge k2 t2 ht2).mpr hkb
              have h2 := inv.degEq k2 hk2 t2 ht2
              have hkf : k ∈ t2.depends_on.filter
                  (fun d => ! ((result.map Task.id).contains d)) :=
                List.mem_filter.mpr ⟨hke, by simp [hkq]⟩
              have hpos : 0 < (t2.depends_on.filter
                  (fun d => ! ((result.map Task.id).contains d))).length :=
                List.length_pos.mpr (List.ne_nil_of_mem hkf)
              omega
            constructor
            · intro hmem
              rcases List.mem_append.mp hmem with h1 | h2
              · exact absurd h1 hk2q
              · have h3 := (List.mem_filter.mp h2).2
                simp only [Bool.and_eq_true, decide_eq_true_eq, beq_iff_eq] at h3
                omega
            · intro hdeg
              refine List.mem_append.mpr (Or.inr (List.mem_filter.mpr
                ⟨hkb, ?_⟩))
              have h1 : deg k2 = 1 := by omega
              simp [hk2, h1]
          · rw [if_neg (fun hc => hkb hc.1)]
            have hold := inv.qChar k2 hk2 hk2pold
            constructor
            · intro hmem
              rcases List.mem_append.mp hmem with h1 | h2
              · exact hold.mp (List.mem_cons_of_mem k h1)
              · exact absurd (List.mem_filter.mp h2).1 hkb
            · intro hdeg
              rcases List.mem_cons.mp (hold.mpr hdeg) with h1 | h2
              · exact absurd h1 hk2k
              · exact List.mem_append.mpr (Or.inl h2)
        · intro r hr d hd2
          rw [hP2]
          rcases List.mem_append.mp hr with h1 | h2
          · exact List.mem_append.mpr (Or.inl (inv.depsDone r h1 d hd2))
          · have hrt : r = t := by simpa using h2
            subst hrt
            exact List.mem_append.mpr (Or.inl (hdeps0 d hd2))
        · intro n hn d hd2
          by_cases hlt : n < result.length
          · rw [List.getElem_append_left hlt] at hd2
            rw [take_append_left_of_le result [t] n (Nat.le_of_lt hlt)]
            exact inv.ordered n hlt d hd2
          · have hne : n = result.length := by
              rw [List.length_append, List.length_singleton] at hn
              omega
            subst hne
            rw [List.getElem_concat_length result t result.length rfl] at hd2
            rw [List.take_left' rfl]
            exact hdeps0 d hd2
      have hfuelNew : (ids.filter
          (fun d => ! (((result ++ [t]).map Task.id).contains d))).length <
          fuel := by
        rw [hP2]
        have harith := unproc_count_dec ids (result.map Task.id) k hnd hkids hkq
        omega
      obtain ⟨result2, deg2, heq, hinv2⟩ := ih
        (t.blocks.foldl (kahnDecStep (tm.kahnTaskMap ids)) (deg, qrest)).1
        (t.blocks.foldl (kahnDecStep (tm.kahnTaskMap ids)) (deg, qrest)).2
        (result ++ [t]) hinvNew hfuelNew
      exact ⟨result2, deg2, hstep ▸ heq, hinv2⟩

end KahnLoopSpec

section KahnCycle

theorem closedUnderDeps_spec (tm : TaskManager) (ids : List String)
    (h : closedUnderDeps tm ids = true) :
    ∀ i ∈ ids, ∀ t, tm.get_task i = some t → ∀ d ∈ t.depends_on, d ∈ ids := by
  intro i hi t ht d hdm
  have h2 := List.all_eq_true.mp h i hi
  simp only [ht] at h2
  have h3 := List.all_eq_true.mp h2 d hdm
  simpa using h3

theorem reachB_succ (tm : TaskManager) (ids : List String) :
    ∀ n u v, reachB tm ids n u v = true →
      reachB tm ids (n + 1) u v = true := by
  intro n
  induction n with
  | zero =>
    intro u v h
    rw [reachB] at h
    cases h
  | succ n ihn =>
    intro u v h
    rw [reachB] at h
    rw [reachB, Bool.or_eq_true]
    rw [Bool.or_eq_true] at h
    rcases h with h1 | h2
    · exact Or.inl h1
    · right
      rw [List.any_eq_true] at h2 ⊢
      obtain ⟨k, hk, hkr⟩ := h2
      rw [Bool.and_eq_true] at hkr
      obtain ⟨hr1, hr2⟩ := hkr
      exact ⟨k, hk, by rw [Bool.and_eq_true]; exact ⟨ihn u k hr1, hr2⟩⟩

theorem reachB_mono (tm : TaskManager) (ids : List String) (m n : Nat)
    (hmn : m ≤ n) :
    ∀ u v, reachB tm ids m u v = true → reachB tm ids n u v = true := by
  obtain ⟨c, rfl⟩ : ∃ c, n = m + c := ⟨n - m, by omega⟩
  clear hmn
  induction c with
  | zero => exact fun u v h => h
  | succ c ihc => exact fun u v h => reachB_succ tm ids (m + c) u v (ihc u v h)

theorem reachB_transGen (tm : TaskManager) (ids : List String) :
    ∀ n u v, reachB tm ids n u v = true →
      Relation.TransGen (fun a b => depEdgeB tm ids a b = true) u v := by
  intro n
  induction n with
  | zero =>
    intro u v h
    rw [reachB] at h
    cases h
  | succ n ihn =>
    intro u v h
    rw [reachB, Bool.or_eq_true] at h
    rcases h with h1 | h2
    · exact Relation.TransGen.single h1
    · rw [List.any_eq_true] at h2
      obtain ⟨k, hk, hkr⟩ := h2
      rw [Bool.and_eq_true] at hkr
      exact Relation.TransGen.tail (ihn u k hkr.1) hkr.2

theorem kahnInv_init (tm : TaskManager) (ids : List String)
    (hnd : ids.Nodup) :
    KahnInv tm ids (initialDeg (tm.kahnTaskMap ids))
      (ids.filter (fun tid => initialDeg (tm.kahnTaskMap ids) tid == 0)) [] := by
  have hdeg : ∀ k ∈ ids, ∀ t, tm.get_task k = some t →
      initialDeg (tm.kahnTaskMap ids) k = (t.depends_on.length : Int) := by
    intro k hk t ht
    unfold initialDeg
    rw [lookupTask_kahnTaskMap tm ids hnd k, if_pos hk, ht]
  refine ⟨?_, ?_, ?_, ?_, ?_, ?_, ?_, ?_, ?_, ?_⟩
  · intro r hr
    cases hr
  · intro r hr
    cases hr
  · simp
  · intro k hk
    exact (List.mem_filter.mp hk).1
  · exact List.Nodup.filter _ hnd
  · intro k hk
    simp
  · intro k hk t ht
    rw [hdeg k hk t ht]
    have hfe : t.depends_on.filter
        (fun d => ! ((([] : List Task).map Task.id).contains d)) =
        t.depends_on := by
      simp
    rw [hfe]
  · intro k hk hkp
    rw [List.mem_filter]
    constructor
    · intro h
      have h2 := h.2
      simpa using h2
    · intro h
      exact ⟨hk, by simp [h]⟩
  · intro r hr
    cases hr
  · intro n h d hd
    simp at h

theorem kahnInv_complete (tm : TaskManager) (ids : List String)
    (hnd : ids.Nodup)
    (hex : ∀ i ∈ ids, (tm.get_task i).isSome = true)
    (hclosed : ∀ i ∈ ids, ∀ t, tm.get_task i = some t →
      ∀ d ∈ t.depends_on, d ∈ ids)
    (deg : String → Int) (result : List Task)
    (inv : KahnInv tm ids deg [] result)
    (hnc : hasCycleB tm ids = false) :
    ∀ i ∈ ids, i ∈ result.map Task.id := by
  by_contra hall
  push_neg at hall
  obtain ⟨u0, hu0ids, hu0p⟩ := hall
  set U := ids.filter (fun x => ! ((result.map Task.id).contains x)) with hU
  have hUiff : ∀ u, u ∈ U ↔ (u ∈ ids ∧ u ∉ result.map Task.id) := by
    intro u
    rw [hU, List.mem_filter]
    simp
  have hu0U : u0 ∈ U := (hUiff u0).mpr ⟨hu0ids, hu0p⟩
  have hpred : ∀ u ∈ U, ∃ v, v ∈ U ∧ depEdgeB tm ids v u = true := by
    intro u hu
    obtain ⟨huids, hup⟩ := (hUiff u).mp hu
    obtain ⟨t, ht⟩ : ∃ t, tm.get_task u = some t :=
      Option.isSome_iff_exists.mp (hex u huids)
    have hdnz : deg u ≠ 0 := fun h0 =>
      (List.not_mem_nil u) ((inv.qChar u huids hup).mpr h0)
    have hdq := inv.degEq u huids t ht
    have hfne : t.depends_on.filter
        (fun d => ! ((result.map Task.id).contains d)) ≠ [] := by
      intro hnil
      rw [hnil] at hdq
      exact hdnz (by simpa using hdq)
    obtain ⟨d, hdmem⟩ := List.exists_mem_of_ne_nil _ hfne
    have hdm := List.mem_filter.mp hdmem
    have hdp : d ∉ result.map Task.id := by
      have h2 := hdm.2
      simpa using h2
    have hdids : d ∈ ids := hclosed u huids t ht d hdm.1
    refine ⟨d, (hUiff d).mpr ⟨hdids, hdp⟩, ?_⟩
    unfold depEdgeB
    rw [ht]
    simp [hdids, huids, hdm.1]
  have hpred2 : ∀ u, ∃ v, u ∈ U → (v ∈ U ∧ depEdgeB tm ids v u = true) := by
    intro u
    by_cases hu : u ∈ U
    · obtain ⟨v, hv⟩ := hpred u hu
      exact ⟨v, fun _ => hv⟩
    · exact ⟨u, fun hc => absurd hc hu⟩
  choose F hF using hpred2
  have hit : ∀ n, F^[n] u0 ∈ U := by
    intro n
    induction n with
    | zero => simpa using hu0U
    | succ n ihn =>
      rw [Function.iterate_succ_apply' F n u0]
      exact (hF (F^[n] u0) ihn).1
  have hiter : ∀ q x, x ∈ U → reachB tm ids (q + 1) (F^[q + 1] x) x = true := by
    intro q
    induction q with
    | zero =>
      intro x hx
      rw [Function.iterate_one]
      rw [reachB, Bool.or_eq_true]
      exact Or.inl (hF x hx).2
    | succ q ihq =>
      intro x hx
      have hFx : F x ∈ U := (hF x hx).1
      rw [reachB, Bool.or_eq_true]
      right
      rw [List.any_eq_true]
      refine ⟨F x, ((hUiff (F x)).mp hFx).1, ?_⟩
      rw [Bool.and_eq_true]
      constructor
      · rw [Function.iterate_succ_apply F (q + 1) x]
        exact ihq (F x) hFx
      · exact (hF x hx).2
  have hULen : U.length ≤ ids.length := by
    rw [hU]
    exact List.length_filter_le _ ids
  have key : ∀ a b : Nat, a < b → b ≤ U.length → F^[a] u0 = F^[b] u0 →
      False := by
    intro a b hab hbU hfe
    have hyU : F^[a] u0 ∈ U := hit a
    have hcycle : reachB tm ids (b - a) (F^[b - a] (F^[a] u0))
        (F^[a] u0) = true := by
      obtain ⟨q, hq⟩ : ∃ q, b - a = q + 1 := ⟨b - a - 1, by omega⟩
      rw [hq]
      exact hiter q (F^[a] u0) hyU
    rw [← Function.iterate_add_apply] at hcycle
    have hba : b - a + a = b := by omega
    rw [hba, ← hfe] at hcycle
    have hmono2 : reachB tm ids ids.length (F^[a] u0) (F^[a] u0) = true :=
      reachB_mono tm ids (b - a) ids.length (by omega) _ _ hcycle
    have hcyc : hasCycleB tm ids = true := by
      unfold hasCycleB
      rw [List.any_eq_true]
      exact ⟨F^[a] u0, ((hUiff _).mp hyU).1, hmono2⟩
    rw [hnc] at hcyc
    cases hcyc
  have hUnd : U.Nodup := by
    rw [hU]
    exact List.Nodup.filter _ hnd
  have hmaps : ∀ m ∈ Finset.range (U.length + 1), F^[m] u0 ∈ U.toFinset :=
    fun m _ => List.mem_toFinset.mpr (hit m)
  have hcard : U.toFinset.card < (Finset.range (U.length + 1)).card := by
    rw [Finset.card_range]
    exact Nat.lt_succ_of_le (le_of_eq (List.toFinset_card_of_nodup hUnd))
  obtain ⟨m, hm, n2, hn2, hmn, hfeq⟩ :=
    Finset.exists_ne_map_eq_of_card_lt_of_maps_to hcard hmaps
  rcases Nat.lt_trichotomy m n2 with hlt | heq2 | hgt
  · exact key m n2 hlt (by
      have h2 := Finset.mem_range.mp hn2
      omega) hfeq
  · exact hmn heq2
  · exact key n2 m hgt (by
      have h2 := Finset.mem_range.mp hm
      omega) hfeq.symm

end KahnCycle

section KahnIncomplete

theorem kahnInv_cycle_incomplete (tm : TaskManager) (ids : List String)
    (deg : String → Int) (result : List Task)
    (inv : KahnInv tm ids deg [] result) (i : String)
    (hcyc : Relation.TransGen (fun a b => depEdgeB tm ids a b = true) i i) :
    ¬ (∀ j ∈ ids, j ∈ result.map Task.id) := by
  intro hall
  have hmono : ∀ u v, depEdgeB tm ids u v = true →
      (result.map Task.id).indexOf u < (result.map Task.id).indexOf v := by
    intro u v he
    unfold depEdgeB at he
    rw [Bool.and_eq_true, Bool.and_eq_true] at he
    obtain ⟨⟨hcu, hcv⟩, hm⟩ := he
    have huids : u ∈ ids := by simpa using hcu
    have hvids : v ∈ ids := by simpa using hcv
    cases hgv : tm.get_task v with
    | none =>
      simp only [hgv] at hm
      cases hm
    | some t =>
      simp only [hgv] at hm
      have hum : u ∈ t.depends_on := by simpa using hm
      have hvproc : v ∈ result.map Task.id := hall v hvids
      have hnlt : (result.map Task.id).indexOf v <
          (result.map Task.id).length := List.indexOf_lt_length.mpr hvproc
      have hnlt2 : (result.map Task.id).indexOf v < result.length := by
        rw [List.length_map] at hnlt
        exact hnlt
      have hg1 : (result.map Task.id)[(result.map Task.id).indexOf v] = v :=
        List.getElem_indexOf hnlt
      have hg2 : (result.map Task.id)[(result.map Task.id).indexOf v] =
          Task.id (result[(result.map Task.id).indexOf v]) := by
        rw [List.getElem_map]
      have hidv : Task.id (result[(result.map Task.id).indexOf v]) = v :=
        hg2.symm.trans hg1
      have hrmem : result[(result.map Task.id).indexOf v] ∈ result :=
        List.getElem_mem hnlt2
      have hro := inv.resOk _ hrmem
      rw [hidv] at hro
      rw [hgv] at hro
      have ht2 : t = result[(result.map Task.id).indexOf v] :=
        Option.some.inj hro
      have hum2 : u ∈ (result[(result.map Task.id).indexOf v]).depends_on :=
        ht2 ▸ hum
      have hord := inv.ordered ((result.map Task.id).indexOf v) hnlt2 u hum2
      rw [List.map_take] at hord
      exact indexOf_lt_of_mem_take (result.map Task.id) _ u hord
  have hlt : ∀ a b, Relation.TransGen
      (fun a b => depEdgeB tm ids a b = true) a b →
      (result.map Task.id).indexOf a < (result.map Task.id).indexOf b := by
    intro a b htg
    induction htg with
    | single h => exact hmono _ _ h
    | tail htg h ihh => exact Nat.lt_trans ihh (hmono _ _ h)
  exact Nat.lt_irrefl _ (hlt i i hcyc)

end KahnIncomplete

section C5Claim

theorem kahn_final (tm : TaskManager) (ids : List String)
    (hwf : tm.WF) (hinv : InverseInvariant tm) (hnd : ids.Nodup)
    (hex : ∀ i ∈ ids, (tm.get_task i).isSome = true) :
    ∃ result2 deg2,
      kahnLoop (tm.kahnTaskMap ids)
        (ids.length + (tm.kahnTaskMap ids).length + 1)
        (initialDeg (tm.kahnTaskMap ids))
        (ids.filter (fun tid => initialDeg (tm.kahnTaskMap ids) tid == 0))
        [] = (result2, []) ∧
      KahnInv tm ids deg2 [] result2 := by
  apply kahnLoop_spec tm ids hwf hinv hnd hex _ _ _ _
    (kahnInv_init tm ids hnd)
  have hfe : ids.filter
      (fun d => ! ((([] : List Task).map Task.id).contains d)) = ids := by
    simp
  rw [hfe]
  omega

theorem get_execution_order_cases (tm : TaskManager) (ids : List String)
    (result2 : List Task)
    (heq : kahnLoop (tm.kahnTaskMap ids)
        (ids.length + (tm.kahnTaskMap ids).length + 1)
        (initialDeg (tm.kahnTaskMap ids))
        (ids.filter (fun tid => initialDeg (tm.kahnTaskMap ids) tid == 0))
        [] = (result2, [])) :
    tm.get_execution_order ids =
      (if result2.length == (tm.kahnTaskMap ids).length then .ok result2
       else .error "Dependency cycle detected in task graph") := by
  simp only [TaskManager.get_execution_order]
  rw [heq]

/-- C5 (amended): on a well-formed manager whose `depends_on`/`blocks`
lists are exact inverses, given a duplicate-free list of existing task ids
that is closed under dependencies, `get_execution_order` returns a
dependency-respecting permutation of the corresponding tasks (every task
appears after all its dependencies) when the induced dependency subgraph is
acyclic, and raises the cycle `ValueError` when that subgraph has a cycle.
The original claim's premise must be strengthened by dependency-closure:
the code counts the full `depends_on` list in the initial in-degree, so an
acyclic input set with an out-of-set dependency also raises (see the
counterexample). -/
theorem C5_execution_order_topological (tm : TaskManager) (ids : List String)
    (hwf : tm.WF) (hinv : InverseInvariant tm) (hnd : ids.Nodup)
    (hex : ∀ i ∈ ids, (tm.get_task i).isSome = true)
    (hcl : closedUnderDeps tm ids = true) :
    (hasCycleB tm ids = false →
      ∃ l, tm.get_execution_order ids = .ok l ∧
        (l.map Task.id).Perm ids ∧
        (∀ r ∈ l, tm.get_task r.id = some r) ∧
        (∀ n (h : n < l.length), ∀ d ∈ l[n].depends_on,
          d ∈ (l.take n).map Task.id)) ∧
    (hasCycleB tm ids = true →
      tm.get_execution_order ids =
        .error "Dependency cycle detected in task graph") := by
  obtain ⟨result2, deg2, heq, inv2⟩ := kahn_final tm ids hwf hinv hnd hex
  have hgeo := get_execution_order_cases tm ids result2 heq
  have hclosed := closedUnderDeps_spec tm ids hcl
  have hMlen : (tm.kahnTaskMap ids).length = ids.length :=
    kahnTaskMap_length tm ids hnd hex
  have hsub : ∀ a ∈ result2.map Task.id, a ∈ ids := by
    intro a ha
    obtain ⟨r, hr, hra⟩ := List.mem_map.mp ha
    exact hra ▸ inv2.resIds r hr
  constructor
  · intro hnc
    have hall := kahnInv_complete tm ids hnd hex hclosed deg2 result2 inv2 hnc
    have hperm : (result2.map Task.id).Perm ids :=
      (List.subperm_of_subset inv2.resNd (fun a ha => hsub a ha)).antisymm
        (List.subperm_of_subset hnd (fun a ha => hall a ha))
    have hlen : result2.length = ids.length := by
      have h2 := hperm.length_eq
      rw [List.length_map] at h2
      exact h2
    refine ⟨result2, ?_, hperm, inv2.resOk, inv2.ordered⟩
    rw [hgeo, if_pos (by rw [hMlen, hlen]; exact beq_self_eq_true _)]
  · intro hc
    unfold hasCycleB at hc
    obtain ⟨y, hy, hr⟩ := List.any_eq_true.mp hc
    have htg := reachB_transGen tm ids ids.length y y hr
    have hninc := kahnInv_cycle_incomplete tm ids deg2 result2 inv2 y htg
    have hcond : ¬ ((result2.length == (tm.kahnTaskMap ids).length) = true) := by
      intro hcnd
      have hlen2 : result2.length = ids.length := by
        have h2 : result2.length = (tm.kahnTaskMap ids).length := by
          simpa using hcnd
        rw [hMlen] at h2
        exact h2
      have hsubp : List.Subperm (result2.map Task.id) ids :=
        List.subperm_of_subset inv2.resNd (fun a ha => hsub a ha)
      have hperm2 : (result2.map Task.id).Perm ids :=
        hsubp.perm_of_length_le (by rw [List.length_map, hlen2])
      exact hninc (fun j hj => hperm2.mem_iff.mpr hj)
    rw [hgeo, if_neg hcond]

end C5Claim

section C5Witness

/-- C5 counterexample: a well-formed two-task manager with exact-inverse
edges, and the singleton id set of the dependent task only. The dependency
relation among the given tasks is acyclic (indeed the whole graph is), yet
`get_execution_order` raises the cycle error, because the initial in-degree
counts the out-of-set dependency and no in-set task ever decrements it. -/
theorem C5_counterexample :
    TaskManager.WF { tasks := [{ id := "a", depends_on := ["b"] },
      { id := "b", blocks := ["a"] }] } ∧
    InverseInvariant { tasks := [{ id := "a", depends_on := ["b"] },
      { id := "b", blocks := ["a"] }] } ∧
    hasCycleB { tasks := [{ id := "a", depends_on := ["b"] },
      { id := "b", blocks := ["a"] }] } ["a", "b"] = false ∧
    hasCycleB { tasks := [{ id := "a", depends_on := ["b"] },
      { id := "b", blocks := ["a"] }] } ["a"] = false ∧
    TaskManager.get_execution_order
      { tasks := [{ id := "a", depends_on := ["b"] },
        { id := "b", blocks := ["a"] }] } ["a"] =
      .error "Dependency cycle detected in task graph" :=
  ⟨by decide, by decide, by decide, by decide, by rfl⟩

theorem C5_execution_order_topological_witness :
    TaskManager.get_execution_order { tasks := [
      { id := "a", depends_on := ["b"], blocks := ["b"] },
      { id := "b", depends_on := ["a"], blocks := ["a"] }] } ["a", "b"] =
      .error "Dependency cycle detected in task graph" :=
  (C5_execution_order_topological { tasks := [
      { id := "a", depends_on := ["b"], blocks := ["b"] },
      { id := "b", depends_on := ["a"], blocks := ["a"] }] } ["a", "b"]
    (by decide) (by decide) (by decide) (by decide) (by decide)).2 (by decide)

end C5Witness

end Orch
